import Mathlib

/-!
Verification of the policy-navigator-agent repository (src/agent.py,
src/upstage_client.py).  Text is modelled as `List Char`; Python string
operations (`str.strip`, `in`, slicing, `"sep".join`) are modelled by
executable Lean functions below, and the JSON handling of `json.loads` /
`json.dumps(..., ensure_ascii=False)` is modelled by an executable
recursive-descent parser and serializer over an explicit JSON value type.
-/

namespace PolicyAgent

/-! ## Python string primitives -/

/-- Whitespace characters stripped by Python `str.strip()` (the ASCII set;
the rare non-ASCII Unicode space characters are not used anywhere in the
repository's literals). Python's regex `\s` matches the same set. -/
def pyIsSpace (c : Char) : Bool :=
  c = ' ' || c = '\t' || c = '\n' || c = '\r' || c = '\x0b' || c = '\x0c'

/-- Python `str.strip()`: remove leading and trailing whitespace. -/
def pyStrip (l : List Char) : List Char :=
  ((l.dropWhile pyIsSpace).reverse.dropWhile pyIsSpace).reverse

/-- Python `"sep".join(xs)`. -/
def pyJoin (sep : List Char) : List (List Char) → List Char
  | [] => []
  | [x] => x
  | x :: y :: rest => x ++ sep ++ pyJoin sep (y :: rest)

/-- `startsWith p l`: `p` is a prefix of `l` (Python `str.startswith`). -/
def startsWith : List Char → List Char → Bool
  | [], _ => true
  | _ :: _, [] => false
  | p :: ps, c :: cs => p == c && startsWith ps cs

/-- Find the first occurrence of `pat` in `l`; on success return the parts
before and after the occurrence (`l = before ++ pat ++ after`).  Models
Python's `str.find` / `in` / leftmost regex literal search. -/
def findSplit (pat : List Char) : List Char → Option (List Char × List Char)
  | [] => if pat.isEmpty then some ([], []) else none
  | c :: rest =>
    if startsWith pat (c :: rest) then some ([], (c :: rest).drop pat.length)
    else (findSplit pat rest).map (fun q => (c :: q.1, q.2))

/-- Python `pat in s` substring test. -/
def containsSub (pat l : List Char) : Bool := (findSplit pat l).isSome

/-! ## Header completion (`agent.py`, `REQUIRED_HEADERS` and
`_ensure_required_headers`) -/

def header1 : List Char := "[자격 판단]".data
def header2 : List Char := "[신청 가능 정책]".data
def header3 : List Char := "[예상 혜택]".data
def header4 : List Char := "[다음 단계]".data
def header5 : List Char := "[확인 필요 사항]".data

/-- `REQUIRED_HEADERS` (agent.py lines 25-31). -/
def REQUIRED_HEADERS : List (List Char) :=
  [header1, header2, header3, header4, header5]

/-- The placeholder body appended under a missing header. -/
def missingBody : List Char := "- 내용이 생성되지 않았습니다.".data

/-- One appended line for a missing header:
Python `f"\n{header}\n- 내용이 생성되지 않았습니다."`. -/
def placeholderLine (h : List Char) : List Char :=
  ['\n'] ++ h ++ ['\n'] ++ missingBody

/-- The list-comprehension `[header for header in REQUIRED_HEADERS if header
not in text]` in `_ensure_required_headers`. -/
def missingHeaders (text : List Char) : List (List Char) :=
  REQUIRED_HEADERS.filter (fun h => !(containsSub h text))

/-- `_ensure_required_headers` (agent.py lines 63-72). -/
def ensure_required_headers (text : List Char) : List Char :=
  if (missingHeaders text).isEmpty then pyStrip text
  else
    pyStrip (pyJoin ['\n']
      ((if (pyStrip text).isEmpty then [] else [pyStrip text]) ++
        (missingHeaders text).map placeholderLine))


/-! ## Profile field merge (`agent.py`, `_append_profile_field`) -/

/-- `_append_profile_field` (agent.py lines 257-264).  The duplicate check is
the source's substring test `f"{field_name}:" in updated_profile`. -/
def append_profile_field (profile field_name value : List Char) : List Char :=
  if containsSub (field_name ++ [':']) (pyStrip profile) then pyStrip profile
  else if !(pyStrip profile).isEmpty then
    pyStrip profile ++ "/ ".data ++ field_name ++ ": ".data ++ value
  else field_name ++ ": ".data ++ value

/-! ## Base-URL normalization (`upstage_client.py`, `_ensure_v1`) -/

/-- Python `str.rstrip("/")`. -/
def rstripSlash (l : List Char) : List Char :=
  (l.reverse.dropWhile (fun c => c == '/')).reverse

/-- `_ensure_v1` (upstage_client.py lines 13-16). -/
def ensure_v1 (base_url : List Char) : List Char :=
  if List.isSuffixOf ("/v1".data) (rstripSlash base_url) then rstripSlash base_url
  else rstripSlash base_url ++ "/v1".data


/-! ## JSON values (model of Python's `json` module)

`Json` models a parsed Python JSON value.  Numbers keep their raw textual
lexeme (`jnum`): the repository never computes with numbers, it only parses
and re-serializes them, so the lexeme is the faithful observable.  Objects
are ordered key/value sequences as Python dicts are (insertion ordered,
duplicate keys collapsed to the first position with the last value, as
`json.loads` builds them). -/

mutual
inductive Json where
  | jnull : Json
  | jbool : Bool → Json
  | jnum : List Char → Json
  | jstr : List Char → Json
  | jarr : JsonItems → Json
  | jobj : JsonMembers → Json
deriving DecidableEq
inductive JsonItems where
  | inil : JsonItems
  | icons : Json → JsonItems → JsonItems
deriving DecidableEq
inductive JsonMembers where
  | mnil : JsonMembers
  | mcons : List Char → Json → JsonMembers → JsonMembers
deriving DecidableEq
end

/-- Python dict insertion `d[k] = v`: replace the value in place if the key
is present, else append at the end. -/
def minsert : JsonMembers → List Char → Json → JsonMembers
  | JsonMembers.mnil, k, v => JsonMembers.mcons k v JsonMembers.mnil
  | JsonMembers.mcons k0 v0 t, k, v =>
    if k0 = k then JsonMembers.mcons k0 v t
    else JsonMembers.mcons k0 v0 (minsert t k v)

def mkeys : JsonMembers → List (List Char)
  | JsonMembers.mnil => []
  | JsonMembers.mcons k _ t => k :: mkeys t

def Json.isObj : Json → Bool
  | Json.jobj _ => true
  | _ => false

/-! ### Serialization: model of `json.dumps(x, ensure_ascii=False)`
(default separators `", "` and `": "`). -/

def hexDigitChar (n : Nat) : Char :=
  if n < 10 then Char.ofNat (48 + n) else Char.ofNat (87 + n)

/-- Escaping of one character inside a JSON string as `json.dumps` does:
quote, backslash, the control-character shorthands, and `\u00xx` for the
remaining control characters; with `ensure_ascii=False` all other
characters pass through verbatim. -/
def escapeChar (c : Char) : List Char :=
  if c = '"' then ['\\', '"']
  else if c = '\\' then ['\\', '\\']
  else if c = '\n' then ['\\', 'n']
  else if c = '\t' then ['\\', 't']
  else if c = '\r' then ['\\', 'r']
  else if c = '\x08' then ['\\', 'b']
  else if c = '\x0c' then ['\\', 'f']
  else if c.toNat < 32 then
    ['\\', 'u', '0', '0', hexDigitChar (c.toNat / 16), hexDigitChar (c.toNat % 16)]
  else [c]

def escapeString (s : List Char) : List Char := (s.map escapeChar).flatten

/-- A serialized object key followed by the key/value separator `": "`. -/
def dumpsKey (k : List Char) : List Char :=
  ['"'] ++ escapeString k ++ "\": ".data

mutual
def dumpsJ : Json → List Char
  | Json.jnull => "null".data
  | Json.jbool true => "true".data
  | Json.jbool false => "false".data
  | Json.jnum s => s
  | Json.jstr s => ['"'] ++ escapeString s ++ ['"']
  | Json.jarr JsonItems.inil => "[]".data
  | Json.jarr (JsonItems.icons x t) => ['['] ++ dumpsJ x ++ dumpsItems t ++ [']']
  | Json.jobj JsonMembers.mnil => ['\x7b', '\x7d']
  | Json.jobj (JsonMembers.mcons k v t) =>
      ['\x7b'] ++ dumpsKey k ++ dumpsJ v ++ dumpsMembers t ++ ['\x7d']
def dumpsItems : JsonItems → List Char
  | JsonItems.inil => []
  | JsonItems.icons x t => ", ".data ++ dumpsJ x ++ dumpsItems t
def dumpsMembers : JsonMembers → List Char
  | JsonMembers.mnil => []
  | JsonMembers.mcons k v t => ", ".data ++ dumpsKey k ++ dumpsJ v ++ dumpsMembers t
end

/-! ### Parsing: model of `json.loads` -/

/-- JSON inter-token whitespace (space, tab, newline, carriage return). -/
def jsonWsChar (c : Char) : Bool :=
  c = ' ' || c = '\t' || c = '\n' || c = '\r'

def skipWs (l : List Char) : List Char := l.dropWhile jsonWsChar

def hexVal (c : Char) : Option Nat :=
  if '0' ≤ c ∧ c ≤ '9' then some (c.toNat - 48)
  else if 'a' ≤ c ∧ c ≤ 'f' then some (c.toNat - 87)
  else if 'A' ≤ c ∧ c ≤ 'F' then some (c.toNat - 55)
  else none

/-- Decode one escape sequence after a backslash inside a JSON string:
the standard shorthands, `\uXXXX`, and surrogate-pair combination, as
`json.loads` does.  Returns the decoded character and the remainder.
(A lone surrogate, which a Python `str` can hold but a Lean `Char` cannot,
is mapped by `Char.ofNat` to NUL — no repository literal hits this corner.) -/
def decodeEscape : List Char → Option (Char × List Char)
  | [] => none
  | e :: rest2 =>
    if e = '"' then some ('"', rest2)
    else if e = '\\' then some ('\\', rest2)
    else if e = '/' then some ('/', rest2)
    else if e = 'b' then some ('\x08', rest2)
    else if e = 'f' then some ('\x0c', rest2)
    else if e = 'n' then some ('\n', rest2)
    else if e = 'r' then some ('\r', rest2)
    else if e = 't' then some ('\t', rest2)
    else if e = 'u' then
      match rest2 with
      | h1 :: h2 :: h3 :: h4 :: rest3 =>
        match hexVal h1, hexVal h2, hexVal h3, hexVal h4 with
        | some v1, some v2, some v3, some v4 =>
          let n := ((v1 * 16 + v2) * 16 + v3) * 16 + v4
          if 0xD800 ≤ n ∧ n ≤ 0xDBFF then
            match rest3 with
            | '\\' :: 'u' :: g1 :: g2 :: g3 :: g4 :: rest4 =>
              match hexVal g1, hexVal g2, hexVal g3, hexVal g4 with
              | some w1, some w2, some w3, some w4 =>
                let m := ((w1 * 16 + w2) * 16 + w3) * 16 + w4
                if 0xDC00 ≤ m ∧ m ≤ 0xDFFF then
                  some (Char.ofNat (0x10000 + (n - 0xD800) * 0x400 + (m - 0xDC00)), rest4)
                else some (Char.ofNat n, rest3)
              | _, _, _, _ => some (Char.ofNat n, rest3)
            | _ => some (Char.ofNat n, rest3)
          else some (Char.ofNat n, rest3)
        | _, _, _, _ => none
      | _ => none
    else none

/-- Parse the body of a JSON string literal after the opening quote,
returning the decoded content and the remainder after the closing quote.
Strict mode: raw control characters are rejected, as in `json.loads`.
The fuel (one unit per decoded character) is supplied as `length + 1`
at the call sites, so it never runs out. -/
def parseStringBody : Nat → List Char → Option (List Char × List Char)
  | 0, _ => none
  | _, [] => none
  | fuel + 1, c :: rest =>
    if c = '"' then some ([], rest)
    else if c = '\\' then
      match decodeEscape rest with
      | none => none
      | some (d, rest2) =>
        (parseStringBody fuel rest2).map (fun q => (d :: q.1, q.2))
    else if c.toNat < 32 then none
    else (parseStringBody fuel rest).map (fun q => (c :: q.1, q.2))

/-- Characters that can occur in a JSON number lexeme. -/
def numberChar (c : Char) : Bool :=
  c.isDigit || c = '-' || c = '+' || c = '.' || c = 'e' || c = 'E'

def allDigits (l : List Char) : Bool := l.all Char.isDigit

def validSignedDigits : List Char → Bool
  | [] => false
  | '+' :: t => !t.isEmpty && allDigits t
  | '-' :: t => !t.isEmpty && allDigits t
  | t => allDigits t

def validExpPart : List Char → Bool
  | [] => true
  | 'e' :: t => validSignedDigits t
  | 'E' :: t => validSignedDigits t
  | _ => false

def validFracExp : List Char → Bool
  | '.' :: t =>
      !(t.takeWhile Char.isDigit).isEmpty &&
        validExpPart (t.dropWhile Char.isDigit)
  | t => validExpPart t

def validIntFracExp : List Char → Bool
  | [] => false
  | '0' :: t => validFracExp t
  | c :: t => c.isDigit && validFracExp (t.dropWhile Char.isDigit)

/-- The JSON number grammar `-? int frac? exp?` (json.loads's NUMBER_RE). -/
def validNumber (s : List Char) : Bool :=
  match s with
  | '-' :: s1 => validIntFracExp s1
  | s1 => validIntFracExp s1

mutual
/-- Fueled recursive-descent JSON value parser (model of `json.loads`'s
scanner; the fuel at the top level is large enough for every input, see
`jsonLoads`).  Returns the value and the unconsumed remainder. -/
def parseVal : Nat → List Char → Option (Json × List Char)
  | 0, _ => none
  | _, [] => none
  | fuel + 1, c :: r =>
    if c = '\x7b' then parseObjBody fuel (skipWs r)
    else if c = '[' then parseArrBody fuel (skipWs r)
    else if c = '"' then
      (parseStringBody (r.length + 1) r).map (fun q => (Json.jstr q.1, q.2))
    else if startsWith ("true".data) (c :: r) then
      some (Json.jbool true, (c :: r).drop 4)
    else if startsWith ("false".data) (c :: r) then
      some (Json.jbool false, (c :: r).drop 5)
    else if startsWith ("null".data) (c :: r) then
      some (Json.jnull, (c :: r).drop 4)
    else if startsWith ("NaN".data) (c :: r) then
      some (Json.jnum ("NaN".data), (c :: r).drop 3)
    else if startsWith ("Infinity".data) (c :: r) then
      some (Json.jnum ("Infinity".data), (c :: r).drop 8)
    else if startsWith ("-Infinity".data) (c :: r) then
      some (Json.jnum ("-Infinity".data), (c :: r).drop 9)
    else
      let run := (c :: r).takeWhile numberChar
      if validNumber run then some (Json.jnum run, (c :: r).dropWhile numberChar)
      else none
termination_by structural fuel _ => fuel
/-- The object body after the opening brace and whitespace: either the
immediate closing brace of `\x7b\x7d`, or one-or-more members. -/
def parseObjBody : Nat → List Char → Option (Json × List Char)
  | 0, _ => none
  | fuel + 1, l =>
    match l with
    | '\x7d' :: r2 => some (Json.jobj JsonMembers.mnil, r2)
    | r1 => (parseMembers fuel JsonMembers.mnil r1).map (fun q => (Json.jobj q.1, q.2))
termination_by structural fuel _ => fuel
/-- The array body after the opening bracket and whitespace: either the
immediate closing bracket of `[]`, or one-or-more items. -/
def parseArrBody : Nat → List Char → Option (Json × List Char)
  | 0, _ => none
  | fuel + 1, l =>
    match l with
    | ']' :: r2 => some (Json.jarr JsonItems.inil, r2)
    | r1 => (parseItems fuel r1).map (fun q => (Json.jarr q.1, q.2))
termination_by structural fuel _ => fuel
/-- Parse one-or-more comma-separated array items up to and including the
closing bracket. -/
def parseItems : Nat → List Char → Option (JsonItems × List Char)
  | 0, _ => none
  | fuel + 1, l =>
    match parseVal fuel l with
    | none => none
    | some (v, r) =>
      match skipWs r with
      | ',' :: r2 => (parseItems fuel (skipWs r2)).map
          (fun q => (JsonItems.icons v q.1, q.2))
      | ']' :: r2 => some (JsonItems.icons v JsonItems.inil, r2)
      | _ => none
termination_by structural fuel _ => fuel
/-- Parse one-or-more `"key": value` object members up to and including the
closing brace, accumulating into the insertion-ordered dict `acc`. -/
def parseMembers : Nat → JsonMembers → List Char → Option (JsonMembers × List Char)
  | 0, _, _ => none
  | fuel + 1, acc, '"' :: r =>
    (match parseStringBody (r.length + 1) r with
     | none => none
     | some (k, r2) =>
       match skipWs r2 with
       | ':' :: r3 =>
         (match parseVal fuel (skipWs r3) with
          | none => none
          | some (v, r4) =>
            match skipWs r4 with
            | ',' :: r5 => parseMembers fuel (minsert acc k v) (skipWs r5)
            | '\x7d' :: r5 => some (minsert acc k v, r5)
            | _ => none)
       | _ => none)
  | _ + 1, _, _ => none
termination_by structural fuel _ _ => fuel
end

/-- `json.loads`: parse one JSON value, allowing surrounding whitespace and
rejecting trailing garbage.  The fuel `3 * length + 3` never runs out:
every three fuel levels consume at least one input character. -/
def jsonLoads (l : List Char) : Option Json :=
  match parseVal (3 * l.length + 3) (skipWs l) with
  | some (j, rest) => if (skipWs rest).isEmpty then some j else none
  | none => none

/-! ### Well-formedness for serialization round trips -/

def keysNodup : JsonMembers → Bool
  | JsonMembers.mnil => true
  | JsonMembers.mcons k _ t => !((mkeys t).contains k) && keysNodup t

mutual
/-- Well-formed JSON value: number lexemes respect the JSON grammar and
object keys are distinct at every level. -/
def wfJ : Json → Bool
  | Json.jnull => true
  | Json.jbool _ => true
  | Json.jnum s => validNumber s
  | Json.jstr _ => true
  | Json.jarr xs => wfI xs
  | Json.jobj ms => keysNodup ms && wfM ms
def wfI : JsonItems → Bool
  | JsonItems.inil => true
  | JsonItems.icons x t => wfJ x && wfI t
def wfM : JsonMembers → Bool
  | JsonMembers.mnil => true
  | JsonMembers.mcons _ v t => wfJ v && wfM t
end

mutual
/-- Fuel needed by `parseVal` on the serialization of a value. -/
def needJ : Json → Nat
  | Json.jnull => 1
  | Json.jbool _ => 1
  | Json.jnum _ => 1
  | Json.jstr _ => 1
  | Json.jarr JsonItems.inil => 2
  | Json.jarr (JsonItems.icons x t) => 2 + needI (JsonItems.icons x t)
  | Json.jobj JsonMembers.mnil => 2
  | Json.jobj (JsonMembers.mcons k v t) => 2 + needM (JsonMembers.mcons k v t)
def needI : JsonItems → Nat
  | JsonItems.inil => 1
  | JsonItems.icons x t => 1 + needJ x + needI t
def needM : JsonMembers → Nat
  | JsonMembers.mnil => 1
  | JsonMembers.mcons _ v t => 1 + needJ v + needM t
end


/-- Concatenation of member sequences. -/
def mappend : JsonMembers → JsonMembers → JsonMembers
  | JsonMembers.mnil, ms => ms
  | JsonMembers.mcons k v t, ms => JsonMembers.mcons k v (mappend t ms)

/-- Fold a member sequence into an accumulator dict by repeated Python
dict insertion, as the `json.loads` object scanner does. -/
def minsertMembers : JsonMembers → JsonMembers → JsonMembers
  | acc, JsonMembers.mnil => acc
  | acc, JsonMembers.mcons k v t => minsertMembers (minsert acc k v) t

/-! ## Plan JSON recovery (`agent.py`, `_parse_plan_json`) -/

/-- Lazy-match removal of reasoning blocks, modelling
`re.sub(r"<think>[\s\S]*?</think>", "", text)`: repeatedly delete the span
from the first `<think>` to the first `</think>` after it.  The fuel is the
input length at call sites, which never runs out since every removal
shortens the text. -/
def stripThink : Nat → List Char → List Char
  | 0, l => l
  | fuel + 1, l =>
    match findSplit ("<think>".data) l with
    | none => l
    | some (before, after) =>
      match findSplit ("</think>".data) after with
      | none => l
      | some (_, after2) => before ++ stripThink fuel after2
termination_by structural fuel _ => fuel

/-- Leftmost match of the fenced-code-block pattern (three backticks, an
optional literal `json`, greedy whitespace, then lazily up to the next three
backticks); returns the capture group.  The optional `json` and the
whitespace contain no backtick, and an opening fence with no closing fence
leaves no closing fence for any later opening either, so the scan is
deterministic. -/
def findFence (l : List Char) : Option (List Char) :=
  match findSplit ("```".data) l with
  | none => none
  | some (_, rest) =>
    let rest2 := if startsWith ("json".data) rest then rest.drop 4 else rest
    let rest3 := rest2.dropWhile pyIsSpace
    match findSplit ("```".data) rest3 with
    | none => none
    | some (content, _) => some content

/-- Python `str.find(ch)`: index of the first occurrence, if any. -/
def pyFindChar (ch : Char) (l : List Char) : Option Nat :=
  l.findIdx? (fun c => c == ch)

/-- Python `str.rfind(ch)`: index of the last occurrence, if any. -/
def pyRFindChar (ch : Char) (l : List Char) : Option Nat :=
  (l.reverse.findIdx? (fun c => c == ch)).map (fun i => l.length - 1 - i)

/-- Reasoning-block stage of `_parse_plan_json` (agent.py lines 200-203):
when a closing tag is present, remove `<think>...</think>` blocks and strip. -/
def planThink (t : List Char) : List Char :=
  if containsSub ("</think>".data) t then pyStrip (stripThink (t.length + 1) t)
  else t

/-- Code-fence stage of `_parse_plan_json` (agent.py lines 204-207): when a
fenced code block is found, keep only its stripped contents. -/
def planFence (t : List Char) : List Char :=
  match findFence t with
  | some content => pyStrip content
  | none => t

/-- Load stage of `_parse_plan_json` (agent.py lines 208-221): strict parse
returning the value only if it is an object, then the first-brace /
last-brace rescue slice, again only accepting an object. -/
def planLoad (t : List Char) : Option Json :=
  match jsonLoads t with
  | some j => if j.isObj then some j else none
  | none =>
    match pyFindChar '\x7b' t, pyRFindChar '\x7d' t with
    | some s, some e =>
      if s < e then
        match jsonLoads ((t.drop s).take (e + 1 - s)) with
        | some j => if j.isObj then some j else none
        | none => none
      else none
    | _, _ => none

/-- `_parse_plan_json` (agent.py lines 191-221). -/
def parse_plan_json (raw_text : List Char) : Option Json :=
  if (pyStrip raw_text).isEmpty then none
  else planLoad (planFence (planThink (pyStrip raw_text)))

/-! ## Python truthiness and dict lookup on JSON values -/

/-- Truthiness of a number lexeme: zero iff the mantissa (everything before
an exponent marker) has no nonzero digit.  Models `bool(float(s))` for the
lexemes produced by JSON parsing (extreme-exponent underflow aside, which
never occurs in this repository's data). -/
def numIsZero (s : List Char) : Bool :=
  (s.takeWhile (fun c => !(c == 'e' || c == 'E'))).all
    (fun c => !(c.isDigit && !(c == '0')))

/-- Python truthiness of a JSON value. -/
def jsonTruthy : Json → Bool
  | Json.jnull => false
  | Json.jbool b => b
  | Json.jstr s => !s.isEmpty
  | Json.jnum s => !(numIsZero s)
  | Json.jarr JsonItems.inil => false
  | Json.jarr (JsonItems.icons _ _) => true
  | Json.jobj JsonMembers.mnil => false
  | Json.jobj (JsonMembers.mcons _ _ _) => true

/-- Python `dict.get`: value of the first member with the given key. -/
def jget : JsonMembers → List Char → Option Json
  | JsonMembers.mnil, _ => none
  | JsonMembers.mcons k v t, key => if k = key then some v else jget t key

/-- Truthiness of a `dict.get` result (`None` when the key is absent). -/
def truthyOpt : Option Json → Bool
  | none => false
  | some v => jsonTruthy v

/-- Python `x or y` on `dict.get` results. -/
def jsonOr (a b : Option Json) : Option Json :=
  match a with
  | some v => if jsonTruthy v then some v else b
  | none => b

/-- The items of a JSON array as a Lean list. -/
def itemsToList : JsonItems → List Json
  | JsonItems.inil => []
  | JsonItems.icons x t => x :: itemsToList t

/-! ## Question filtering (`agent.py`, `_filter_questions_llm`) -/

/-- `isinstance(item, dict) and (item.get("question") or item.get("field"))`. -/
def isQuestionRecord : Json → Bool
  | Json.jobj ms =>
      truthyOpt (jget ms ("question".data)) || truthyOpt (jget ms ("field".data))
  | _ => false

/-- One step of the normalisation loop (agent.py lines 157-161): keep
question records, turn nonblank plain strings into unnamed-field records,
drop everything else. -/
def normalizeQuestion : Json → Option Json
  | Json.jobj ms =>
      if isQuestionRecord (Json.jobj ms) then some (Json.jobj ms) else none
  | Json.jstr s =>
      if (pyStrip s).isEmpty then none
      else some (Json.jobj (JsonMembers.mcons ("field".data) Json.jnull
        (JsonMembers.mcons ("question".data) (Json.jstr (pyStrip s))
          JsonMembers.mnil)))
  | _ => none

def normalizeQuestions (l : List Json) : List Json := l.filterMap normalizeQuestion

/-- Parsing of the filter model's output (agent.py lines 171-178): strict
parse, then the first-bracket/last-bracket rescue slice; a rescue slice that
fails to parse raises out of the inner scope (`Except.error`). -/
def parseFilterOutput (output : List Char) : Except Unit (Option Json) :=
  match jsonLoads output with
  | some j => Except.ok (some j)
  | none =>
    match pyFindChar '[' output, pyRFindChar ']' output with
    | some s, some e =>
      if s < e then
        match jsonLoads ((output.drop s).take (e + 1 - s)) with
        | some j => Except.ok (some j)
        | none => Except.error ()
      else Except.ok none
    | _, _ => Except.ok none

/-- `_filter_questions_llm` (agent.py lines 149-188).  The model call is an
oracle argument: `Except.error` for a raised exception, `Except.ok` for the
returned output text. -/
def filter_questions_llm (llm : Except Unit (List Char))
    (questions : List Json) : List Json :=
  if questions.isEmpty then []
  else
    let normalized := normalizeQuestions questions
    if normalized.isEmpty then []
    else
      match llm with
      | Except.error _ => normalized
      | Except.ok output =>
        match parseFilterOutput output with
        | Except.error _ => normalized
        | Except.ok (some (Json.jarr items)) =>
          let parsedList := itemsToList items
          if parsedList.isEmpty then []
          else parsedList.filter isQuestionRecord
        | Except.ok _ => normalized

/-! ## Document Parse error classification (`upstage_client.py`,
`call_document_parse`) -/

/-- The HTTP response of the Document Parse call: status, body text and
decoded JSON body. -/
structure HttpResponse where
  status_code : Nat
  text : List Char
  body : Json

/-- `requests`' `response.ok`: status below 400. -/
def respOk (r : HttpResponse) : Bool := r.status_code < 400

def DP_RETRY_HINT : List Char :=
  "Upstage 서버 일시 오류입니다. 잠시 후 다시 시도하세요.".data

def DP_AUTH_HINT : List Char :=
  "API 키를 확인하거나 결제/크레딧 상태를 확인하세요.".data

/-- The error message built for a non-success response
(upstage_client.py lines 70-78). -/
def dpErrorMsg (r : HttpResponse) : List Char :=
  let base := ("Document Parse API 오류 (".data)
    ++ Nat.toDigits 10 r.status_code ++ ("). ".data)
  if r.status_code = 500 then base ++ DP_RETRY_HINT
  else if r.status_code = 401 then base ++ DP_AUTH_HINT
  else base ++ (if r.text.isEmpty then [] else r.text.take 200)

/-- `call_document_parse` (upstage_client.py lines 54-79), from the HTTP
response onward: a non-success response raises `RuntimeError(msg)`, a
success returns the decoded JSON body. -/
def call_document_parse (r : HttpResponse) : Except (List Char) Json :=
  if respOk r then Except.ok r.body else Except.error (dpErrorMsg r)

/-! ## Information extraction (`upstage_client.py` `call_information_extract`,
`agent.py` `_safe_information_extract`) -/

/-- Outcome of the underlying API interaction: the call raised (network,
auth, file or schema error), or it returned a message whose `content` is
`None`, a string, or some other object (`some j` when `json.dumps` can
serialize it as `j`, `none` when it raises `TypeError`). -/
inductive IEOutcome where
  | raised : IEOutcome
  | contentNone : IEOutcome
  | contentStr : List Char → IEOutcome
  | contentOther : Option Json → IEOutcome
deriving DecidableEq

/-- Result of `call_information_extract`: a JSON value, Python `None`, or a
non-serializable object returned as-is. -/
inductive IEResult where
  | rjson : Json → IEResult
  | rnone : IEResult
  | ropaque : IEResult
deriving DecidableEq

/-- `call_information_extract` (upstage_client.py lines 82-118) from the
response onward: `json.loads(content)` when `content` is a string, with
`JSONDecodeError` downgraded to `\x7b\x7d`; a non-string `content` is
returned unchanged; an exception anywhere propagates. -/
def call_information_extract : IEOutcome → Except Unit IEResult
  | IEOutcome.raised => Except.error ()
  | IEOutcome.contentNone => Except.ok IEResult.rnone
  | IEOutcome.contentStr s =>
    Except.ok (match jsonLoads s with
      | some j => IEResult.rjson j
      | none => IEResult.rjson (Json.jobj JsonMembers.mnil))
  | IEOutcome.contentOther none => Except.ok IEResult.ropaque
  | IEOutcome.contentOther (some j) => Except.ok (IEResult.rjson j)

/-- `json.dumps(result, ensure_ascii=False)` on the extraction result:
`None` serializes to `null`, a non-serializable object raises `TypeError`. -/
def pyJsonDumpsIE : IEResult → Option (List Char)
  | IEResult.rjson j => some (dumpsJ j)
  | IEResult.rnone => some ("null".data)
  | IEResult.ropaque => none

/-- `_safe_information_extract` (agent.py lines 244-254). -/
def safe_information_extract (o : IEOutcome) : Option (List Char) :=
  match call_information_extract o with
  | Except.error _ => none
  | Except.ok res =>
    match pyJsonDumpsIE res with
    | some s => some s
    | none => none

/-! ## Response normalisation (`agent.py`, `_policy_text_from_parsed_doc`
and `_normalize_policy_text`) -/

def MAX_POLICY_TEXT_CHARS : Nat := 20000

/-- `re.sub(r"<[^>]+>", " ", s)`: replace every `<`, one-or-more
non-`>` characters, `>` span with one space, scanning left to right.  The
fuel is the input length plus one at call sites; every step consumes at
least one character. -/
def stripTags : Nat → List Char → List Char
  | 0, l => l
  | _ + 1, [] => []
  | fuel + 1, c :: rest =>
    if c = '<' then
      match rest.takeWhile (fun d => !(d == '>')),
          rest.dropWhile (fun d => !(d == '>')) with
      | [], _ => '<' :: stripTags fuel rest
      | _ :: _, '>' :: rest3 => ' ' :: stripTags fuel rest3
      | _ :: _, _ => '<' :: stripTags fuel rest
    else c :: stripTags fuel rest
termination_by structural fuel _ => fuel

/-- `re.sub(r"\s+", " ", s)`: collapse every whitespace run to one space. -/
def collapseWs : Nat → List Char → List Char
  | 0, l => l
  | _ + 1, [] => []
  | fuel + 1, c :: rest =>
    if pyIsSpace c then ' ' :: collapseWs fuel (rest.dropWhile pyIsSpace)
    else c :: collapseWs fuel rest
termination_by structural fuel _ => fuel

/-- `_normalize_policy_text` (agent.py lines 115-121): strip `<...>` tags
when both brackets occur, collapse whitespace, strip, truncate. -/
def normalize_policy_text (raw_text : List Char) : List Char :=
  let text := if containsSub ['<'] raw_text && containsSub ['>'] raw_text
    then stripTags (raw_text.length + 1) raw_text else raw_text
  (pyStrip (collapseWs (text.length + 1) text)).take MAX_POLICY_TEXT_CHARS

/-- Python `str()` of a JSON value as it appears in element contents.  For
the containers the code never hits with non-JSON reprs, the JSON
serialization stands in for `str()`. -/
def pyStrJ : Json → List Char
  | Json.jstr s => s
  | Json.jnum s => s
  | Json.jbool true => "True".data
  | Json.jbool false => "False".data
  | Json.jnull => "None".data
  | Json.jarr xs => dumpsJ (Json.jarr xs)
  | Json.jobj ms => dumpsJ (Json.jobj ms)

/-- `isinstance(val, str) and val.strip()` (agent.py line 83). -/
def tryStrVal : Option Json → Option (List Char)
  | some (Json.jstr s) => if (pyStrip s).isEmpty then none else some s
  | _ => none

/-- The nested `text`/`html` lookup when the value is a dict
(agent.py lines 85-89). -/
def tryNested : Option Json → Option (List Char)
  | some (Json.jobj ms) =>
    match tryStrVal (jget ms ("text".data)) with
    | some s => some s
    | none => tryStrVal (jget ms ("html".data))
  | _ => none

/-- One iteration of the `("html", "text", "content")` key loop
(agent.py lines 81-89). -/
def tryKey (doc : JsonMembers) (key : List Char) : Option (List Char) :=
  match tryStrVal (jget doc key) with
  | some s => some s
  | none => tryNested (jget doc key)

/-- `parsed_doc.get("content", \x7b\x7d).get("elements")` (agent.py line 91):
an `AttributeError` is raised when the `content` value is not a dict. -/
def elementsFallback (doc : JsonMembers) : Except Unit (Option Json)  :=
  match jget doc ("content".data) with
  | none => Except.ok none
  | some (Json.jobj ms) => Except.ok (jget ms ("elements".data))
  | some _ => Except.error ()

/-- `parsed_doc.get("elements") or parsed_doc.get("content", \x7b\x7d).get("elements")`
(agent.py line 91). -/
def elementsOf (doc : JsonMembers) : Except Unit (Option Json) :=
  match jget doc ("elements".data) with
  | some v => if jsonTruthy v then Except.ok (some v) else elementsFallback doc
  | none => elementsFallback doc

/-- The text contributed by one element of the `elements` list
(agent.py lines 94-106); `none` when the element is skipped. -/
def elementText (el : Json) : Option (List Char) :=
  match el with
  | Json.jobj ms =>
    let t : Option Json :=
      match jget ms ("content".data) with
      | some (Json.jobj cs) =>
        jsonOr (jget cs ("text".data))
          (jsonOr (jget cs ("markdown".data)) (jget cs ("html".data)))
      | some (Json.jstr s) => some (Json.jstr s)
      | _ => none
    match t with
    | some tv =>
      if jsonTruthy tv && !(pyStrip (pyStrJ tv)).isEmpty
      then some (pyStrip (pyStrJ tv)) else none
    | none => none
  | _ => none

/-- The `parts` list built from the elements (agent.py lines 93-106). -/
def elementsTexts (items : JsonItems) : List (List Char) :=
  (itemsToList items).filterMap elementText

/-- `_policy_text_from_parsed_doc` (agent.py lines 75-112).  The
`AttributeError` corner (a non-dict `content` value reached by the fallback
lookup) is the `Except.error` case. -/
def policy_text_from_parsed_doc (doc : JsonMembers) : Except Unit (List Char) :=
  match tryKey doc ("html".data) with
  | some s => Except.ok (normalize_policy_text s)
  | none =>
  match tryKey doc ("text".data) with
  | some s => Except.ok (normalize_policy_text s)
  | none =>
  match tryKey doc ("content".data) with
  | some s => Except.ok (normalize_policy_text s)
  | none =>
  match elementsOf doc with
  | Except.error _ => Except.error ()
  | Except.ok (some (Json.jarr items)) =>
    if !(elementsTexts items).isEmpty
    then Except.ok (normalize_policy_text (pyJoin [' '] (elementsTexts items)))
    else Except.ok (normalize_policy_text (dumpsJ (Json.jobj doc)))
  | Except.ok _ => Except.ok (normalize_policy_text (dumpsJ (Json.jobj doc)))

end PolicyAgent

namespace PolicyAgent

/-! ## Generic lemmas about `pyStrip`, `findSplit`, `pyJoin` -/

theorem startsWith_iff {p l : List Char} : startsWith p l = true ↔ p <+: l := by
  induction p generalizing l with
  | nil => simp [startsWith]
  | cons a as ih =>
    cases l with
    | nil => simp [startsWith]
    | cons c cs =>
      rw [startsWith, Bool.and_eq_true, beq_iff_eq, ih, List.cons_prefix_cons]

theorem findSplit_eq (pat : List Char) {l a b : List Char}
    (h : findSplit pat l = some (a, b)) : l = a ++ pat ++ b := by
  induction l generalizing a with
  | nil =>
    by_cases hp : pat.isEmpty <;> simp [findSplit, hp] at h
    obtain ⟨rfl, rfl⟩ := h
    simp_all [List.isEmpty_iff]
  | cons c rest ih =>
    rw [findSplit] at h
    by_cases hp : startsWith pat (c :: rest)
    · rw [if_pos hp] at h
      obtain ⟨rfl, rfl⟩ := Prod.mk.injEq .. ▸ Option.some.injEq .. ▸ h
      have hpre : pat <+: c :: rest := startsWith_iff.mp hp
      obtain ⟨t, ht⟩ := hpre
      simp [← ht, List.drop_left]
    · rw [if_neg hp] at h
      cases hfs : findSplit pat rest with
      | none => simp [hfs] at h
      | some q =>
        simp only [hfs, Option.map_some'] at h
        obtain ⟨rfl, rfl⟩ := Prod.mk.injEq .. ▸ Option.some.injEq .. ▸ h
        simp [ih hfs]

theorem findSplit_isSome_iff {pat l : List Char} :
    (findSplit pat l).isSome ↔ pat <:+: l := by
  induction l with
  | nil =>
    by_cases hp : pat.isEmpty <;>
      simp_all [findSplit, List.isEmpty_iff, List.infix_nil]
  | cons c rest ih =>
    rw [findSplit]
    by_cases hp : startsWith pat (c :: rest)
    · simp only [if_pos hp, Option.isSome_some, true_iff]
      exact (startsWith_iff.mp hp).isInfix
    · simp only [if_neg hp]
      have hmap : (Option.map (fun q => (c :: q.1, q.2)) (findSplit pat rest)).isSome
          = (findSplit pat rest).isSome := by
        cases findSplit pat rest <;> rfl
      rw [hmap, ih, List.infix_cons_iff]
      constructor
      · exact Or.inr
      · rintro (hpre | hinf)
        · exact absurd (startsWith_iff.mpr hpre) hp
        · exact hinf

theorem containsSub_iff {pat l : List Char} :
    containsSub pat l = true ↔ pat <:+: l := by
  rw [containsSub]
  exact findSplit_isSome_iff

theorem dropWhile_eq_self_of_head (p : Char → Bool) {l : List Char}
    (h : ∀ c, l.head? = some c → p c = false) : l.dropWhile p = l := by
  cases l with
  | nil => rfl
  | cons x xs =>
    have : p x = false := h x rfl
    simp [List.dropWhile_cons, this]

theorem pyStrip_head? {l : List Char} {c : Char}
    (h : (pyStrip l).head? = some c) : pyIsSpace c = false := by
  rw [pyStrip, List.head?_reverse] at h
  obtain ⟨a, ha⟩ :=
    @List.dropWhile_suffix Char ((l.dropWhile pyIsSpace).reverse) pyIsSpace
  have hm : ((l.dropWhile pyIsSpace).reverse).getLast? = some c := by
    rw [← ha, List.getLast?_append, h]; rfl
  rw [List.getLast?_reverse] at hm
  have hd := List.head?_dropWhile_not pyIsSpace l
  rw [hm] at hd
  exact hd

theorem pyStrip_getLast? {l : List Char} {c : Char}
    (h : (pyStrip l).getLast? = some c) : pyIsSpace c = false := by
  rw [pyStrip, List.getLast?_reverse] at h
  have hd := List.head?_dropWhile_not pyIsSpace (l.dropWhile pyIsSpace).reverse
  rw [h] at hd
  exact hd

theorem pyStrip_eq_self {l : List Char}
    (h1 : ∀ c, l.head? = some c → pyIsSpace c = false)
    (h2 : ∀ c, l.getLast? = some c → pyIsSpace c = false) :
    pyStrip l = l := by
  rw [pyStrip, dropWhile_eq_self_of_head pyIsSpace h1]
  rw [dropWhile_eq_self_of_head pyIsSpace (fun c hc => h2 c (by rwa [List.head?_reverse] at hc))]
  exact l.reverse_reverse

theorem pyStrip_idem (l : List Char) : pyStrip (pyStrip l) = pyStrip l :=
  pyStrip_eq_self (fun _ h => pyStrip_head? h) (fun _ h => pyStrip_getLast? h)

theorem infix_dropWhile_of_head (p : Char → Bool) {h t : List Char}
    (hinf : h <:+: t) (hhead : ∀ c, h.head? = some c → p c = false) :
    h <:+: t.dropWhile p := by
  obtain ⟨a, b, rfl⟩ := hinf
  rw [List.append_assoc, List.dropWhile_append]
  by_cases hae : ((a.dropWhile p).isEmpty) <;> simp only [hae, if_true, if_false, ite_true, ite_false]
  · cases h with
    | nil => simp
    | cons x xs =>
      have : p x = false := hhead x rfl
      rw [List.cons_append, List.dropWhile_cons_of_neg (by simp [this])]
      exact List.infix_append' [] _ _
  · exact List.infix_append' _ _ _

theorem infix_pyStrip {h t : List Char}
    (hinf : h <:+: t)
    (hhead : ∀ c, h.head? = some c → pyIsSpace c = false)
    (hlast : ∀ c, h.getLast? = some c → pyIsSpace c = false) :
    h <:+: pyStrip t := by
  have s1 : h <:+: t.dropWhile pyIsSpace := infix_dropWhile_of_head pyIsSpace hinf hhead
  have s2 : h.reverse <:+: (t.dropWhile pyIsSpace).reverse := List.reverse_infix.mpr s1
  have s3 : h.reverse <:+: ((t.dropWhile pyIsSpace).reverse).dropWhile pyIsSpace :=
    infix_dropWhile_of_head pyIsSpace s2
      (fun c hc => hlast c (by rwa [List.head?_reverse] at hc))
  rw [pyStrip]
  have := List.reverse_infix.mpr s3
  rwa [List.reverse_reverse] at this

theorem mem_pyJoin_within {x : List Char} {sep : List Char} :
    ∀ {xs : List (List Char)}, x ∈ xs → x <:+: pyJoin sep xs
  | [], h => absurd h (List.not_mem_nil x)
  | [y], h => by
    rw [List.mem_singleton] at h
    subst h
    exact List.infix_refl x
  | y :: z :: rest, h => by
    rw [List.mem_cons] at h
    rcases h with rfl | h
    · rw [pyJoin, List.append_assoc]
      exact (List.prefix_append x (sep ++ pyJoin sep (z :: rest))).isInfix
    · have ih : x <:+: pyJoin sep (z :: rest) := mem_pyJoin_within h
      refine ih.trans (List.IsSuffix.isInfix ?_)
      rw [pyJoin]
      exact List.suffix_append (y ++ sep) (pyJoin sep (z :: rest))

end PolicyAgent

namespace PolicyAgent

theorem pyJoin_cons_ne {sep x : List Char} {xs : List (List Char)} (h : xs ≠ []) :
    pyJoin sep (x :: xs) = x ++ sep ++ pyJoin sep xs := by
  cases xs with
  | nil => exact absurd rfl h
  | cons y t => rw [pyJoin]

/-! ## Lemmas about the required headers -/

/-- A text whose first and last characters exist and are not whitespace. -/
def edgesOk (h : List Char) : Bool :=
  match h.head?, h.getLast? with
  | some a, some b => !pyIsSpace a && !pyIsSpace b
  | _, _ => false

theorem edgesOk_ne_nil {h : List Char} (he : edgesOk h = true) : h ≠ [] := by
  intro hnil
  subst hnil
  simp [edgesOk] at he

theorem edgesOk_head {h : List Char} (he : edgesOk h = true) :
    ∀ c, h.head? = some c → pyIsSpace c = false := by
  intro c hc
  rw [edgesOk, hc] at he
  cases hg : h.getLast? with
  | none => rw [hg] at he; simp at he
  | some b =>
    rw [hg] at he
    simp only [Bool.and_eq_true, Bool.not_eq_true'] at he
    exact he.1

theorem edgesOk_getLast {h : List Char} (he : edgesOk h = true) :
    ∀ c, h.getLast? = some c → pyIsSpace c = false := by
  intro c hc
  rw [edgesOk, hc] at he
  cases hg : h.head? with
  | none => rw [hg] at he; simp at he
  | some b =>
    rw [hg] at he
    simp only [Bool.and_eq_true, Bool.not_eq_true'] at he
    exact he.2

theorem headers_edgesOk : ∀ h ∈ REQUIRED_HEADERS, edgesOk h = true := by decide

theorem getLast?_placeholder_join :
    ∀ (ms : List (List Char)), ms ≠ [] →
      (pyJoin ['\n'] (ms.map placeholderLine)).getLast? = some '.'
  | [], h => absurd rfl h
  | [x], _ => by
    rw [List.map_singleton]
    show (pyJoin ['\n'] [placeholderLine x]).getLast? = some '.'
    rw [pyJoin, placeholderLine, List.getLast?_append]
    rfl
  | x :: y :: rest, _ => by
    have ih := getLast?_placeholder_join (y :: rest) (by simp)
    rw [List.map_cons, pyJoin_cons_ne (by simp), List.getLast?_append]
    have : (pyJoin ['\n'] ((y :: rest).map placeholderLine)).getLast? = some '.' := by
      rw [List.map_cons] at ih ⊢
      exact ih
    rw [this]
    rfl

/-- Every required header is an infix of the output of
`_ensure_required_headers`, for every input text. -/
theorem headers_in_ensure (t : List Char) :
    ∀ h ∈ REQUIRED_HEADERS, h <:+: ensure_required_headers t := by
  intro h hm
  have he := headers_edgesOk h hm
  have hne := edgesOk_ne_nil he
  have hh := edgesOk_head he
  have hl := edgesOk_getLast he
  by_cases hmiss : (missingHeaders t).isEmpty
  · rw [ensure_required_headers, if_pos hmiss]
    have hfe : ∀ x ∈ REQUIRED_HEADERS, ¬((!(containsSub x t)) = true) :=
      List.filter_eq_nil_iff.mp (List.isEmpty_iff.mp hmiss)
    have hct : containsSub h t = true := by
      have := hfe h hm
      simpa using this
    exact infix_pyStrip (containsSub_iff.mp hct) hh hl
  · rw [ensure_required_headers, if_neg hmiss]
    by_cases hc : containsSub h t = true
    · have h1 : h <:+: pyStrip t := infix_pyStrip (containsSub_iff.mp hc) hh hl
      have hpt : ¬((pyStrip t).isEmpty = true) := by
        intro hempty
        rw [List.isEmpty_iff] at hempty
        rw [hempty] at h1
        exact hne (List.infix_nil.mp h1)
      have hmem : pyStrip t ∈
          (if (pyStrip t).isEmpty then ([] : List (List Char)) else [pyStrip t]) ++
            (missingHeaders t).map placeholderLine := by
        rw [if_neg hpt]
        exact List.mem_append_left _ (List.mem_singleton_self _)
      exact infix_pyStrip (h1.trans (mem_pyJoin_within hmem)) hh hl
    · have hmm : h ∈ missingHeaders t := by
        rw [missingHeaders]
        exact List.mem_filter.mpr ⟨hm, by simp [hc]⟩
      have hpl : placeholderLine h ∈
          (if (pyStrip t).isEmpty then ([] : List (List Char)) else [pyStrip t]) ++
            (missingHeaders t).map placeholderLine :=
        List.mem_append_right _ (List.mem_map_of_mem placeholderLine hmm)
      have h2 : h <:+: placeholderLine h := by
        rw [placeholderLine]
        exact ⟨['\n'], ['\n'] ++ missingBody, by simp⟩
      exact infix_pyStrip (h2.trans (mem_pyJoin_within hpl)) hh hl

end PolicyAgent

namespace PolicyAgent

/-! ## Additivity and idempotence of header completion -/

/-- `_ensure_required_headers` is additive: the stripped input text is a
prefix of the output, and each missing header occurs in the appended rest. -/
theorem ensure_additive (t : List Char) :
    ∃ rest, ensure_required_headers t = pyStrip t ++ rest ∧
      ∀ h ∈ missingHeaders t, h <:+: rest := by
  by_cases hmiss : (missingHeaders t).isEmpty
  · refine ⟨[], ?_, ?_⟩
    · rw [ensure_required_headers, if_pos hmiss, List.append_nil]
    · intro h hm
      rw [List.isEmpty_iff.mp hmiss] at hm
      cases hm
  · rw [ensure_required_headers, if_neg hmiss]
    have hmne : missingHeaders t ≠ [] := by
      simpa [List.isEmpty_iff] using hmiss
    by_cases hpt : (pyStrip t).isEmpty
    · refine ⟨pyStrip (pyJoin ['\n']
        ((if (pyStrip t).isEmpty then [] else [pyStrip t]) ++
          (missingHeaders t).map placeholderLine)), ?_, ?_⟩
      · rw [List.isEmpty_iff.mp hpt, List.nil_append]
      · intro h hm
        have hrh : h ∈ REQUIRED_HEADERS := (List.mem_filter.mp hm).1
        have he := headers_edgesOk h hrh
        apply infix_pyStrip ?_ (edgesOk_head he) (edgesOk_getLast he)
        have h2 : h <:+: placeholderLine h := by
          rw [placeholderLine]
          exact ⟨['\n'], ['\n'] ++ missingBody, by simp⟩
        exact h2.trans (mem_pyJoin_within
          (List.mem_append_right _ (List.mem_map_of_mem placeholderLine hm)))
    · rw [if_neg hpt]
      have hmapne : (missingHeaders t).map placeholderLine ≠ [] := by
        simpa using hmne
      rw [List.singleton_append, pyJoin_cons_ne hmapne]
      have hg := getLast?_placeholder_join (missingHeaders t) hmne
      obtain ⟨c0, l0, hl0⟩ :
          ∃ c0 l0, pyStrip t = c0 :: l0 := by
        cases hq : pyStrip t with
        | nil => rw [hq] at hpt; exact absurd rfl hpt
        | cons a b => exact ⟨a, b, rfl⟩
      have hJ : pyStrip (pyStrip t ++ ['\n'] ++
            pyJoin ['\n'] ((missingHeaders t).map placeholderLine))
          = pyStrip t ++ ['\n'] ++
            pyJoin ['\n'] ((missingHeaders t).map placeholderLine) := by
        apply pyStrip_eq_self
        · intro c hc
          rw [List.append_assoc, List.head?_append, hl0, List.head?_cons,
            Option.or_some] at hc
          cases hc
          apply pyStrip_head? (c := c0)
          rw [hl0]
          rfl
        · intro c hc
          rw [List.append_assoc, List.getLast?_append, List.getLast?_append,
            hg, Option.or_some, Option.or_some] at hc
          cases hc
          decide
      rw [hJ, List.append_assoc]
      refine ⟨['\n'] ++ pyJoin ['\n'] ((missingHeaders t).map placeholderLine),
        rfl, ?_⟩
      intro h hm
      have h2 : h <:+: placeholderLine h := by
        rw [placeholderLine]
        exact ⟨['\n'], ['\n'] ++ missingBody, by simp⟩
      have h3 : h <:+: pyJoin ['\n'] ((missingHeaders t).map placeholderLine) :=
        h2.trans (mem_pyJoin_within (List.mem_map_of_mem placeholderLine hm))
      exact h3.trans (List.suffix_append ['\n'] _).isInfix

theorem ensure_fixed (t : List Char) :
    pyStrip (ensure_required_headers t) = ensure_required_headers t := by
  rw [ensure_required_headers]
  split
  · exact pyStrip_idem t
  · exact pyStrip_idem _

theorem missing_ensure_empty (t : List Char) :
    (missingHeaders (ensure_required_headers t)).isEmpty = true := by
  rw [missingHeaders, List.isEmpty_iff, List.filter_eq_nil_iff]
  intro h hm
  simp [containsSub_iff.mpr (headers_in_ensure t h hm)]

end PolicyAgent

namespace PolicyAgent

/-! ## Claim theorems: header completion -/

/-- C1: for every input text (including the empty string),
`_ensure_required_headers` returns a string in which each of the five literal
section header strings occurs as a substring. -/
theorem claim_C1_headers_present (t : List Char) :
    ∀ h ∈ REQUIRED_HEADERS, h <:+: ensure_required_headers t :=
  headers_in_ensure t

/-- Witness for C1 at the empty input text and the first header. -/
theorem claim_C1_headers_present_witness :
    header1 ∈ REQUIRED_HEADERS ∧ header1 <:+: ensure_required_headers [] :=
  ⟨by decide, claim_C1_headers_present [] header1 (by decide)⟩

/-- C2: `_ensure_required_headers` is purely additive: the (stripped) input
text is a prefix of the output — its content is neither removed nor
reordered — and the output appends after it a rest in which every missing
header occurs. -/
theorem claim_C2_additive (t : List Char) :
    ∃ rest, ensure_required_headers t = pyStrip t ++ rest ∧
      ∀ h ∈ missingHeaders t, h <:+: rest :=
  ensure_additive t

/-- C3: `_ensure_required_headers` is idempotent. -/
theorem claim_C3_idempotent (t : List Char) :
    ensure_required_headers (ensure_required_headers t) =
      ensure_required_headers t := by
  have hall := missing_ensure_empty t
  rw [ensure_required_headers, if_pos hall, ensure_fixed]

end PolicyAgent

namespace PolicyAgent

/-! ## Claim theorems: profile merge and URL normalization -/

/-- C6: `_append_profile_field`: if the field-name check (the source's
`f"{field_name}:" in profile` test on the stripped profile) finds the field,
the (stripped) profile is returned unchanged; otherwise the merge returns a
strictly longer profile of which the prior (stripped) profile is a prefix and
which ends with the new `field: value` fragment. -/
theorem claim_C6_profile_merge (p f v : List Char) :
    (containsSub (f ++ [':']) (pyStrip p) = true →
        append_profile_field p f v = pyStrip p)
    ∧ (containsSub (f ++ [':']) (pyStrip p) = false →
        (pyStrip p <+: append_profile_field p f v) ∧
        (pyStrip p).length < (append_profile_field p f v).length ∧
        (f ++ ": ".data ++ v) <:+ append_profile_field p f v) := by
  constructor
  · intro hc
    rw [append_profile_field, if_pos hc]
  · intro hc
    rw [append_profile_field, if_neg (by simp [hc])]
    by_cases hem : (pyStrip p).isEmpty
    · rw [if_neg (by simp [hem])]
      refine ⟨?_, ?_, List.suffix_refl _⟩
      · rw [List.isEmpty_iff.mp hem]
        exact List.nil_prefix
      · rw [List.isEmpty_iff.mp hem]
        simp
    · rw [if_pos (by simp [hem])]
      refine ⟨?_, ?_, ?_⟩
      · exact ((List.prefix_append _ _).trans (List.prefix_append _ _)).trans
          ((List.prefix_append _ _).trans (List.prefix_append _ _))
      · simp
      · refine ⟨pyStrip p ++ "/ ".data, ?_⟩
        simp [List.append_assoc]

/-- Witness for C6: both branches at concrete inputs — a field already
present is left unchanged; a new field is appended. -/
theorem claim_C6_profile_merge_witness :
    (containsSub ("나이".data ++ [':']) (pyStrip ("나이: 29".data)) = true ∧
      append_profile_field ("나이: 29".data) ("나이".data) ("30".data) =
        pyStrip ("나이: 29".data))
    ∧ (containsSub ("지역".data ++ [':']) (pyStrip ("나이: 29".data)) = false ∧
        pyStrip ("나이: 29".data) <+:
          append_profile_field ("나이: 29".data) ("지역".data) ("서울".data)) := by
  refine ⟨⟨by decide, ?_⟩, ⟨by decide, ?_⟩⟩
  · exact (claim_C6_profile_merge ("나이: 29".data) ("나이".data) ("30".data)).1
      (by decide)
  · exact ((claim_C6_profile_merge ("나이: 29".data) ("지역".data) ("서울".data)).2
      (by decide)).1

theorem rstripSlash_eq_self {l : List Char}
    (h : ∀ c, l.getLast? = some c → c ≠ '/') : rstripSlash l = l := by
  rw [rstripSlash, dropWhile_eq_self_of_head _ ?_, List.reverse_reverse]
  intro c hc
  rw [List.head?_reverse] at hc
  exact beq_eq_false_iff_ne.mpr (h c hc)

theorem ensure_v1_suffix (s : List Char) : "/v1".data <:+ ensure_v1 s := by
  rw [ensure_v1]
  split
  · exact List.isSuffixOf_iff_suffix.mp (by assumption)
  · exact List.suffix_append _ _

theorem ensure_v1_getLast {s : List Char} :
    ∀ c, (ensure_v1 s).getLast? = some c → c ≠ '/' := by
  intro c hc
  obtain ⟨a, ha⟩ := ensure_v1_suffix s
  rw [← ha, List.getLast?_append] at hc
  have : ("/v1".data : List Char).getLast? = some '1' := by decide
  rw [this, Option.or_some] at hc
  cases hc
  decide

/-- C10: `_ensure_v1` always produces a URL that ends in `/v1`, has no
trailing slash, and is a fixed point of `_ensure_v1`. -/
theorem claim_C10_ensure_v1 (s : List Char) :
    ("/v1".data <:+ ensure_v1 s) ∧
    (∀ c, (ensure_v1 s).getLast? = some c → c ≠ '/') ∧
    ensure_v1 (ensure_v1 s) = ensure_v1 s := by
  refine ⟨ensure_v1_suffix s, ensure_v1_getLast, ?_⟩
  have hfix : rstripSlash (ensure_v1 s) = ensure_v1 s :=
    rstripSlash_eq_self ensure_v1_getLast
  rw [ensure_v1, hfix, if_pos (List.isSuffixOf_iff_suffix.mpr (ensure_v1_suffix s))]

end PolicyAgent

namespace PolicyAgent

/-! ## Round trip: `jsonLoads (dumpsJ j) = some j` for well-formed `j` -/

theorem numberChar_of_digit {c : Char} (h : c.isDigit = true) :
    numberChar c = true := by
  simp [numberChar, h]

theorem allDigits_mem {m : List Char} {c : Char}
    (hm : allDigits m = true) (hcm : c ∈ m) : numberChar c = true := by
  simp only [allDigits, List.all_eq_true] at hm
  exact numberChar_of_digit (hm c hcm)

theorem validSignedDigits_chars {l : List Char} (h : validSignedDigits l = true) :
    ∀ c ∈ l, numberChar c = true := by
  intro c hc
  rw [validSignedDigits.eq_def] at h
  split at h
  · cases hc
  · rcases List.mem_cons.mp hc with rfl | hc2
    · rfl
    · exact allDigits_mem (Bool.and_elim_right h) hc2
  · rcases List.mem_cons.mp hc with rfl | hc2
    · rfl
    · exact allDigits_mem (Bool.and_elim_right h) hc2
  · exact allDigits_mem h hc

theorem validExpPart_chars {l : List Char} (h : validExpPart l = true) :
    ∀ c ∈ l, numberChar c = true := by
  intro c hc
  rw [validExpPart.eq_def] at h
  split at h
  · cases hc
  · rcases List.mem_cons.mp hc with rfl | hc2
    · rfl
    · exact validSignedDigits_chars h c hc2
  · rcases List.mem_cons.mp hc with rfl | hc2
    · rfl
    · exact validSignedDigits_chars h c hc2
  · cases h

theorem validFracExp_chars {l : List Char} (h : validFracExp l = true) :
    ∀ c ∈ l, numberChar c = true := by
  intro c hc
  rw [validFracExp.eq_def] at h
  split at h
  · simp only [Bool.and_eq_true] at h
    rcases List.mem_cons.mp hc with rfl | hc2
    · rfl
    · rename_i t
      rw [← List.takeWhile_append_dropWhile Char.isDigit t] at hc2
      rcases List.mem_append.mp hc2 with hc3 | hc3
      · exact numberChar_of_digit (List.mem_takeWhile_imp hc3)
      · exact validExpPart_chars h.2 c hc3
  · exact validExpPart_chars h c hc

theorem validIntFracExp_chars {l : List Char} (h : validIntFracExp l = true) :
    ∀ c ∈ l, numberChar c = true := by
  intro c hc
  rw [validIntFracExp.eq_def] at h
  split at h
  · cases hc
  · rcases List.mem_cons.mp hc with rfl | hc2
    · rfl
    · exact validFracExp_chars h c hc2
  · simp only [Bool.and_eq_true] at h
    rcases List.mem_cons.mp hc with rfl | hc2
    · exact numberChar_of_digit h.1
    · rename_i d t _
      rw [← List.takeWhile_append_dropWhile Char.isDigit t] at hc2
      rcases List.mem_append.mp hc2 with hc3 | hc3
      · exact numberChar_of_digit (List.mem_takeWhile_imp hc3)
      · exact validFracExp_chars h.2 c hc3

theorem validNumber_chars {l : List Char} (h : validNumber l = true) :
    ∀ c ∈ l, numberChar c = true := by
  intro c hc
  rw [validNumber.eq_def] at h
  split at h
  · rcases List.mem_cons.mp hc with rfl | hc2
    · rfl
    · exact validIntFracExp_chars h c hc2
  · exact validIntFracExp_chars h c hc

theorem validNumber_head {l : List Char} (h : validNumber l = true) :
    ∃ c cs, l = c :: cs ∧ (c = '-' ∨ c.isDigit = true) := by
  rw [validNumber.eq_def] at h
  split at h
  · exact ⟨'-', _, rfl, Or.inl rfl⟩
  · rw [validIntFracExp.eq_def] at h
    split at h
    · cases h
    · exact ⟨'0', _, rfl, Or.inr rfl⟩
    · exact ⟨_, _, rfl, Or.inr (Bool.and_elim_left h)⟩

end PolicyAgent


namespace PolicyAgent

theorem skipWs_cons_false {c : Char} {l : List Char} (hc : jsonWsChar c = false) :
    skipWs (c :: l) = c :: l := by
  rw [skipWs, List.dropWhile_cons_of_neg (by simp [hc])]

theorem skipWs_cons_true {c : Char} {l : List Char} (hc : jsonWsChar c = true) :
    skipWs (c :: l) = skipWs l := by
  rw [skipWs, List.dropWhile_cons_of_pos hc]
  rfl

theorem digit_not_ws {c : Char} (h : c.isDigit = true) : jsonWsChar c = false := by
  rw [jsonWsChar]
  by_cases h1 : c = ' '
  · subst h1; simp [Char.isDigit] at h
  by_cases h2 : c = '\t'
  · subst h2; simp [Char.isDigit] at h
  by_cases h3 : c = '\n'
  · subst h3; simp [Char.isDigit] at h
  by_cases h4 : c = '\r'
  · subst h4; simp [Char.isDigit] at h
  simp [h1, h2, h3, h4]

theorem digit_ne_rbracket {c : Char} (h : c.isDigit = true) : c ≠ ']' := by
  intro hc
  subst hc
  simp [Char.isDigit] at h

theorem escapeString_cons (c : Char) (s : List Char) :
    escapeString (c :: s) = escapeChar c ++ escapeString s := by
  simp [escapeString]

theorem escapeChar_length_pos (c : Char) : 1 ≤ (escapeChar c).length := by
  rw [escapeChar]
  split_ifs <;> simp

theorem length_le_escapeString (s : List Char) :
    s.length ≤ (escapeString s).length := by
  induction s with
  | nil => simp [escapeString]
  | cons c cs ih =>
    rw [escapeString_cons, List.length_append, List.length_cons]
    have := escapeChar_length_pos c
    omega

theorem hexVal_hexDigitChar {v : Nat} (h : v < 16) :
    hexVal (hexDigitChar v) = some v := by
  interval_cases v <;> rfl

end PolicyAgent

namespace PolicyAgent

theorem decodeEscape_unicode {c : Char} (h8 : c.toNat < 32) (tail : List Char) :
    decodeEscape ('u' :: '0' :: '0' :: hexDigitChar (c.toNat / 16) ::
      hexDigitChar (c.toNat % 16) :: tail) = some (c, tail) := by
  obtain ⟨k, hk, hke⟩ : ∃ k, k < 32 ∧ c.toNat = k := ⟨c.toNat, h8, rfl⟩
  have hc : c = Char.ofNat k := by rw [← hke, Char.ofNat_toNat]
  rw [hke, hc]
  interval_cases k <;> rfl

theorem parseStringBody_plain {f : Nat} {c : Char} {X : List Char}
    (h1 : ¬c = '"') (h2 : ¬c = '\\') (h8 : ¬c.toNat < 32) :
    parseStringBody (f + 1) (c :: X)
      = (parseStringBody f X).map (fun q => (c :: q.1, q.2)) := by
  rw [parseStringBody.eq_def]
  split
  next => omega
  next heq _ => exact absurd heq (by simp)
  next f2 c2 rest heq1 heq2 =>
    cases heq2
    rw [if_neg h1, if_neg h2, if_neg h8]
    have hf : f2 = f := by omega
    rw [hf]

theorem parseStringBody_backslash {f : Nat} {X : List Char} {d : Char}
    {rest2 : List Char} (h : decodeEscape X = some (d, rest2)) :
    parseStringBody (f + 1) ('\\' :: X)
      = (parseStringBody f rest2).map (fun q => (d :: q.1, q.2)) := by
  rw [parseStringBody.eq_def]
  split
  next => omega
  next heq _ => exact absurd heq (by simp)
  next f2 c2 rest heq1 heq2 =>
    cases heq2
    rw [if_neg (by decide), if_pos rfl, h]
    have hf : f2 = f := by omega
    rw [hf]

/-- String-escape round trip: the string parser decodes the serializer's
escaping, consuming up to and including the closing quote. -/
theorem parseStringBody_escape :
    ∀ (s rest : List Char) (fuel : Nat), s.length + 1 ≤ fuel →
      parseStringBody fuel (escapeString s ++ '"' :: rest) = some (s, rest) := by
  intro s
  induction s with
  | nil =>
    intro rest fuel hf
    match fuel, hf with
    | f + 1, _ =>
      show parseStringBody (f + 1) (escapeString [] ++ '"' :: rest) = _
      rfl
  | cons c cs ih =>
    intro rest fuel hf
    match fuel, hf with
    | f + 1, hf =>
      have hfs : cs.length + 1 ≤ f := by
        simp only [List.length_cons] at hf
        omega
      have ihr : parseStringBody f (escapeString cs ++ '"' :: rest) = some (cs, rest) :=
        ih rest f hfs
      rw [escapeString_cons, List.append_assoc]
      by_cases h1 : c = '"'
      · subst h1
        show (parseStringBody f (escapeString cs ++ '"' :: rest)).map
          (fun q => ('"' :: q.1, q.2)) = _
        rw [ihr]
        rfl
      by_cases h2 : c = '\\'
      · subst h2
        show (parseStringBody f (escapeString cs ++ '"' :: rest)).map
          (fun q => ('\\' :: q.1, q.2)) = _
        rw [ihr]
        rfl
      by_cases h3 : c = '\n'
      · subst h3
        show (parseStringBody f (escapeString cs ++ '"' :: rest)).map
          (fun q => ('\n' :: q.1, q.2)) = _
        rw [ihr]
        rfl
      by_cases h4 : c = '\t'
      · subst h4
        show (parseStringBody f (escapeString cs ++ '"' :: rest)).map
          (fun q => ('\t' :: q.1, q.2)) = _
        rw [ihr]
        rfl
      by_cases h5 : c = '\r'
      · subst h5
        show (parseStringBody f (escapeString cs ++ '"' :: rest)).map
          (fun q => ('\r' :: q.1, q.2)) = _
        rw [ihr]
        rfl
      by_cases h6 : c = '\x08'
      · subst h6
        show (parseStringBody f (escapeString cs ++ '"' :: rest)).map
          (fun q => ('\x08' :: q.1, q.2)) = _
        rw [ihr]
        rfl
      by_cases h7 : c = '\x0c'
      · subst h7
        show (parseStringBody f (escapeString cs ++ '"' :: rest)).map
          (fun q => ('\x0c' :: q.1, q.2)) = _
        rw [ihr]
        rfl
      by_cases h8 : c.toNat < 32
      · rw [escapeChar, if_neg h1, if_neg h2, if_neg h3, if_neg h4, if_neg h5,
          if_neg h6, if_neg h7, if_pos h8]
        rw [show ('\\' :: 'u' :: '0' :: '0' :: hexDigitChar (c.toNat / 16) ::
            hexDigitChar (c.toNat % 16) :: []) ++ (escapeString cs ++ '"' :: rest)
            = '\\' :: ('u' :: '0' :: '0' :: hexDigitChar (c.toNat / 16) ::
              hexDigitChar (c.toNat % 16) :: (escapeString cs ++ '"' :: rest))
          from rfl]
        rw [parseStringBody_backslash (decodeEscape_unicode h8 _), ihr]
        rfl
      · rw [escapeChar, if_neg h1, if_neg h2, if_neg h3, if_neg h4, if_neg h5,
          if_neg h6, if_neg h7, if_neg h8, List.singleton_append]
        rw [parseStringBody_plain h1 h2 h8, ihr]
        rfl

end PolicyAgent

namespace PolicyAgent

theorem minsert_fresh : ∀ (acc : JsonMembers) (k : List Char) (v : Json),
    ¬ k ∈ mkeys acc →
    minsert acc k v = mappend acc (JsonMembers.mcons k v JsonMembers.mnil)
  | JsonMembers.mnil, _, _, _ => rfl
  | JsonMembers.mcons k0 v0 t, k, v, h => by
    rw [minsert, mappend]
    rw [mkeys] at h
    have hk0 : ¬ k0 = k := fun he => h (he ▸ List.mem_cons_self _ _)
    rw [if_neg hk0, minsert_fresh t k v (fun hm => h (List.mem_cons_of_mem _ hm))]

theorem mkeys_mappend : ∀ (a b : JsonMembers),
    mkeys (mappend a b) = mkeys a ++ mkeys b
  | JsonMembers.mnil, _ => rfl
  | JsonMembers.mcons k v t, b => by
    rw [mappend, mkeys, mkeys, mkeys_mappend t b, List.cons_append]

theorem mappend_assoc : ∀ (a b c : JsonMembers),
    mappend (mappend a b) c = mappend a (mappend b c)
  | JsonMembers.mnil, _, _ => rfl
  | JsonMembers.mcons k v t, b, c => by
    rw [mappend, mappend, mappend, mappend_assoc t b c]

theorem mappend_mnil : ∀ (acc : JsonMembers), mappend acc JsonMembers.mnil = acc
  | JsonMembers.mnil => rfl
  | JsonMembers.mcons k v t => by rw [mappend, mappend_mnil t]

theorem minsertMembers_fresh : ∀ (ms acc : JsonMembers),
    keysNodup ms = true → (∀ k ∈ mkeys ms, ¬ k ∈ mkeys acc) →
    minsertMembers acc ms = mappend acc ms
  | JsonMembers.mnil, acc, _, _ => by
    rw [minsertMembers, mappend_mnil]
  | JsonMembers.mcons k v t, acc, hnd, hdis => by
    rw [minsertMembers]
    rw [keysNodup, Bool.and_eq_true] at hnd
    have hkacc : ¬ k ∈ mkeys acc := hdis k (by rw [mkeys]; exact List.mem_cons_self _ _)
    have hknotin : ¬ k ∈ mkeys t := by
      intro hm
      have h1 := hnd.1
      rw [List.contains, List.elem_eq_true_of_mem hm] at h1
      cases h1
    have hdis2 : ∀ k2 ∈ mkeys t, ¬ k2 ∈ mkeys (minsert acc k v) := by
      intro k2 hk2 hk2in
      rw [minsert_fresh acc k v hkacc, mkeys_mappend] at hk2in
      rcases List.mem_append.mp hk2in with hin | hin
      · exact hdis k2 (by rw [mkeys]; exact List.mem_cons_of_mem _ hk2) hin
      · rw [mkeys, mkeys, List.mem_singleton] at hin
        exact hknotin (hin ▸ hk2)
    rw [minsertMembers_fresh t (minsert acc k v) hnd.2 hdis2,
      minsert_fresh acc k v hkacc, mappend_assoc]
    rfl

end PolicyAgent

namespace PolicyAgent

theorem needJ_pos (j : Json) : 1 ≤ needJ j := by
  cases j with
  | jarr xs => cases xs <;> simp [needJ] <;> omega
  | jobj ms => cases ms <;> simp [needJ] <;> omega
  | _ => simp [needJ]

theorem validIntFracExp_head {l : List Char} (h : validIntFracExp l = true) :
    ∃ d ds, l = d :: ds ∧ d.isDigit = true := by
  rw [validIntFracExp.eq_def] at h
  split at h
  · cases h
  · exact ⟨'0', _, rfl, rfl⟩
  · exact ⟨_, _, rfl, Bool.and_elim_left h⟩

/-- The head character of a serialized well-formed value: it exists, is not
JSON whitespace, and is not a closing bracket. -/
theorem dumpsJ_head {j : Json} (hw : wfJ j = true) :
    ∃ c cs, dumpsJ j = c :: cs ∧ jsonWsChar c = false ∧ ¬ c = ']' := by
  cases j with
  | jnull => exact ⟨'n', ['u', 'l', 'l'], by decide, by decide, by decide⟩
  | jbool b =>
    cases b
    · exact ⟨'f', ['a', 'l', 's', 'e'], by decide, by decide, by decide⟩
    · exact ⟨'t', ['r', 'u', 'e'], by decide, by decide, by decide⟩
  | jnum s =>
    rw [wfJ] at hw
    obtain ⟨c, cs, rfl, hc⟩ := validNumber_head hw
    rcases hc with rfl | hdig
    · exact ⟨'-', cs, rfl, by decide, by decide⟩
    · exact ⟨c, cs, rfl, digit_not_ws hdig, digit_ne_rbracket hdig⟩
  | jstr s => exact ⟨'"', escapeString s ++ ['"'], rfl, by decide, by decide⟩
  | jarr xs =>
    cases xs with
    | inil => exact ⟨'[', [']'], by decide, by decide, by decide⟩
    | icons x t =>
      exact ⟨'[', dumpsJ x ++ dumpsItems t ++ [']'], rfl, by decide, by decide⟩
  | jobj ms =>
    cases ms with
    | mnil => exact ⟨'\x7b', ['\x7d'], by decide, by decide, by decide⟩
    | mcons k v t =>
      exact ⟨'\x7b', dumpsKey k ++ dumpsJ v ++ dumpsMembers t ++ ['\x7d'], rfl,
        by decide, by decide⟩

theorem takeWhile_all_append {p : Char → Bool} :
    ∀ {s : List Char}, (∀ c ∈ s, p c = true) →
    ∀ {rest : List Char}, (∀ c, rest.head? = some c → p c = false) →
      (s ++ rest).takeWhile p = s ∧ (s ++ rest).dropWhile p = rest := by
  intro s hall
  induction s with
  | nil =>
    intro rest hr
    constructor
    · cases rest with
      | nil => rfl
      | cons c cs =>
        rw [List.nil_append, List.takeWhile_cons, hr c rfl]
        simp
    · cases rest with
      | nil => rfl
      | cons c cs =>
        rw [List.nil_append, List.dropWhile_cons, hr c rfl]
        simp
  | cons a as ih =>
    intro rest hr
    have hpa : p a = true := hall a (List.mem_cons_self _ _)
    have hall2 : ∀ c ∈ as, p c = true := fun c hc => hall c (List.mem_cons_of_mem _ hc)
    obtain ⟨ht, hd⟩ := ih hall2 hr
    constructor
    · rw [List.cons_append, List.takeWhile_cons, hpa]
      simp [ht]
    · rw [List.cons_append, List.dropWhile_cons, hpa]
      simp [hd]

end PolicyAgent

namespace PolicyAgent

theorem startsWith_cons_false {p0 c : Char} {ps X : List Char} (h : ¬ p0 = c) :
    startsWith (p0 :: ps) (c :: X) = false := by
  rw [startsWith]
  simp [beq_eq_false_iff_ne.mpr h]

theorem digit_ne_of {c d : Char} (h : c.isDigit = true) (hd : d.isDigit = false) :
    ¬ c = d := by
  intro rfl2
  rw [rfl2] at h
  rw [h] at hd
  cases hd

/-- Round trip of the fueled parser on serialized well-formed values,
item lists, and member lists, by strong induction on the fuel. -/
theorem parse_dumps_roundTrip :
    ∀ n : Nat,
      (∀ (j : Json) (rest : List Char), wfJ j = true → needJ j ≤ n →
        (∀ c, rest.head? = some c → numberChar c = false) →
        parseVal n (dumpsJ j ++ rest) = some (j, rest))
      ∧ (∀ (x : Json) (xs : JsonItems) (rest : List Char),
          wfJ x = true → wfI xs = true → needI (JsonItems.icons x xs) ≤ n →
          parseItems n (dumpsJ x ++ dumpsItems xs ++ (']' :: rest))
            = some (JsonItems.icons x xs, rest))
      ∧ (∀ (k : List Char) (v : Json) (ms : JsonMembers) (acc : JsonMembers)
          (rest : List Char),
          wfJ v = true → wfM ms = true →
          needM (JsonMembers.mcons k v ms) ≤ n →
          parseMembers n acc
              (dumpsKey k ++ dumpsJ v ++ dumpsMembers ms ++ ('\x7d' :: rest))
            = some (minsertMembers acc (JsonMembers.mcons k v ms), rest)) := by
  intro n
  induction n using Nat.strong_induction_on with
  | _ n ih =>
  refine ⟨?_, ?_, ?_⟩
  · -- values
    intro j rest hw hneed hstop
    obtain ⟨n1, rfl⟩ : ∃ n1, n = n1 + 1 :=
      ⟨n - 1, by have := needJ_pos j; omega⟩
    cases j with
    | jnull => rfl
    | jbool b => cases b <;> rfl
    | jstr s =>
      have hin : dumpsJ (Json.jstr s) ++ rest
          = '"' :: (escapeString s ++ '"' :: rest) := by
        simp [dumpsJ]
      rw [hin]
      show (parseStringBody ((escapeString s ++ '"' :: rest).length + 1)
          (escapeString s ++ '"' :: rest)).map (fun q => (Json.jstr q.1, q.2))
        = some (Json.jstr s, rest)
      rw [parseStringBody_escape s rest _ ?_]
      · rfl
      · have h1 := length_le_escapeString s
        rw [List.length_append]
        omega
    | jnum s =>
      rw [wfJ] at hw
      obtain ⟨c, cs, rfl, hc⟩ := validNumber_head hw
      have hall : ∀ d ∈ c :: cs, numberChar d = true := validNumber_chars hw
      have hrw : dumpsJ (Json.jnum (c :: cs)) ++ rest = c :: (cs ++ rest) := by
        simp [dumpsJ]
      rw [hrw]
      have hnotlb : ¬ c = '\x7b' := by
        rcases hc with rfl | h
        · decide
        · exact digit_ne_of h (by decide)
      have hnotbk : ¬ c = '[' := by
        rcases hc with rfl | h
        · decide
        · exact digit_ne_of h (by decide)
      have hnotq : ¬ c = '"' := by
        rcases hc with rfl | h
        · decide
        · exact digit_ne_of h (by decide)
      have hnott : startsWith ("true".data) (c :: (cs ++ rest)) = false := by
        apply startsWith_cons_false
        rcases hc with rfl | h
        · decide
        · exact fun he => digit_ne_of h (by decide) he.symm
      have hnotf : startsWith ("false".data) (c :: (cs ++ rest)) = false := by
        apply startsWith_cons_false
        rcases hc with rfl | h
        · decide
        · exact fun he => digit_ne_of h (by decide) he.symm
      have hnotn : startsWith ("null".data) (c :: (cs ++ rest)) = false := by
        apply startsWith_cons_false
        rcases hc with rfl | h
        · decide
        · exact fun he => digit_ne_of h (by decide) he.symm
      have hnotN : startsWith ("NaN".data) (c :: (cs ++ rest)) = false := by
        apply startsWith_cons_false
        rcases hc with rfl | h
        · decide
        · exact fun he => digit_ne_of h (by decide) he.symm
      have hnotI : startsWith ("Infinity".data) (c :: (cs ++ rest)) = false := by
        apply startsWith_cons_false
        rcases hc with rfl | h
        · decide
        · exact fun he => digit_ne_of h (by decide) he.symm
      have hnotmI : startsWith ("-Infinity".data) (c :: (cs ++ rest)) = false := by
        rcases hc with rfl | h
        · have hifr : validIntFracExp cs = true := by
            rw [validNumber.eq_def] at hw
            exact hw
          obtain ⟨d, ds, rfl, hd⟩ := validIntFracExp_head hifr
          have h2 : startsWith ("Infinity".data) (d :: (ds ++ rest)) = false :=
            startsWith_cons_false (fun he => digit_ne_of hd (by decide) he.symm)
          show startsWith ('-' :: ("Infinity".data))
            ('-' :: ((d :: ds) ++ rest)) = false
          rw [startsWith, List.cons_append]
          simpa using h2
        · exact startsWith_cons_false (fun he => digit_ne_of h (by decide) he.symm)
      obtain ⟨htake, hdrop⟩ :=
        @takeWhile_all_append numberChar _ hall rest hstop
      rw [List.cons_append] at htake hdrop
      rw [parseVal]
      rw [if_neg hnotlb, if_neg hnotbk, if_neg hnotq,
        if_neg (by rw [hnott]; exact fun h => nomatch h),
        if_neg (by rw [hnotf]; exact fun h => nomatch h),
        if_neg (by rw [hnotn]; exact fun h => nomatch h),
        if_neg (by rw [hnotN]; exact fun h => nomatch h),
        if_neg (by rw [hnotI]; exact fun h => nomatch h),
        if_neg (by rw [hnotmI]; exact fun h => nomatch h)]
      simp only [htake, hdrop, hw, if_pos]
    | jarr xs =>
      cases xs with
      | inil =>
        rw [needJ] at hneed
        obtain ⟨m, rfl⟩ : ∃ m, n1 = m + 1 := ⟨n1 - 1, by omega⟩
        rfl
      | icons x t =>
        rw [needJ, needI] at hneed
        have hx := needJ_pos x
        obtain ⟨m, rfl⟩ : ∃ m, n1 = m + 1 := ⟨n1 - 1, by omega⟩
        have ihI := (ih m (by omega)).2.1
        rw [wfJ, wfI, Bool.and_eq_true] at hw
        have hin : dumpsJ (Json.jarr (JsonItems.icons x t)) ++ rest
            = '[' :: (dumpsJ x ++ (dumpsItems t ++ (']' :: rest))) := by
          simp [dumpsJ]
        rw [hin]
        rw [show parseVal (m + 1 + 1)
            ('[' :: (dumpsJ x ++ (dumpsItems t ++ (']' :: rest))))
            = parseArrBody (m + 1)
                (skipWs (dumpsJ x ++ (dumpsItems t ++ (']' :: rest)))) from rfl]
        obtain ⟨c, cs, hcx, hcw, hcb⟩ := dumpsJ_head hw.1
        have hskip : skipWs (dumpsJ x ++ (dumpsItems t ++ (']' :: rest)))
            = dumpsJ x ++ (dumpsItems t ++ (']' :: rest)) := by
          rw [hcx, List.cons_append, skipWs_cons_false hcw]
        rw [hskip]
        have hcond : ∀ r2 : List Char,
            dumpsJ x ++ (dumpsItems t ++ (']' :: rest)) = ']' :: r2 → False := by
          intro r2 heq
          rw [hcx, List.cons_append] at heq
          exact hcb (List.cons.injEq .. ▸ heq).1
        rw [parseArrBody.eq_3 _ _ hcond, ← List.append_assoc,
          ihI x t rest hw.1 hw.2 (by rw [needI]; omega)]
        rfl
    | jobj ms =>
      cases ms with
      | mnil =>
        rw [needJ] at hneed
        obtain ⟨m, rfl⟩ : ∃ m, n1 = m + 1 := ⟨n1 - 1, by omega⟩
        rfl
      | mcons k v t =>
        rw [needJ, needM] at hneed
        have hv := needJ_pos v
        obtain ⟨m, rfl⟩ : ∃ m, n1 = m + 1 := ⟨n1 - 1, by omega⟩
        have ihM := (ih m (by omega)).2.2
        rw [wfJ, Bool.and_eq_true] at hw
        obtain ⟨hnodup, hwm⟩ := hw
        rw [wfM, Bool.and_eq_true] at hwm
        have hin : dumpsJ (Json.jobj (JsonMembers.mcons k v t)) ++ rest
            = '\x7b' :: (dumpsKey k ++ dumpsJ v ++ dumpsMembers t
                ++ ('\x7d' :: rest)) := by
          simp [dumpsJ]
        rw [hin]
        rw [show parseVal (m + 1 + 1)
            ('\x7b' :: (dumpsKey k ++ dumpsJ v ++ dumpsMembers t ++ ('\x7d' :: rest)))
            = parseObjBody (m + 1)
                (skipWs (dumpsKey k ++ dumpsJ v ++ dumpsMembers t
                  ++ ('\x7d' :: rest))) from rfl]
        have hkey : dumpsKey k ++ dumpsJ v ++ dumpsMembers t ++ ('\x7d' :: rest)
            = '"' :: (escapeString k ++ ('"' :: ':' :: ' ' ::
                (dumpsJ v ++ (dumpsMembers t ++ ('\x7d' :: rest))))) := by
          simp [dumpsKey]
        have hskip : skipWs (dumpsKey k ++ dumpsJ v ++ dumpsMembers t
            ++ ('\x7d' :: rest))
            = dumpsKey k ++ dumpsJ v ++ dumpsMembers t ++ ('\x7d' :: rest) := by
          rw [hkey, skipWs_cons_false (by decide)]
        rw [hskip]
        have hcond : ∀ r2 : List Char,
            dumpsKey k ++ dumpsJ v ++ dumpsMembers t ++ ('\x7d' :: rest)
              = '\x7d' :: r2 → False := by
          intro r2 heq
          rw [hkey] at heq
          exact absurd (List.cons.injEq .. ▸ heq).1 (by decide)
        rw [parseObjBody.eq_3 _ _ hcond]
        rw [ihM k v t JsonMembers.mnil rest hwm.1 hwm.2 (by rw [needM]; omega)]
        rw [minsertMembers_fresh _ _ hnodup ?_]
        · rfl
        · intro k2 _ hk2
          rw [mkeys] at hk2
          cases hk2
  · -- item lists
    intro x xs rest hwx hwxs hneed
    rw [needI] at hneed
    have hx := needJ_pos x
    obtain ⟨n1, rfl⟩ : ∃ n1, n = n1 + 1 := ⟨n - 1, by omega⟩
    have ihV := (ih n1 (by omega)).1
    have ihI := (ih n1 (by omega)).2.1
    rw [parseItems, List.append_assoc]
    have hstop2 : ∀ c, (dumpsItems xs ++ (']' :: rest)).head? = some c →
        numberChar c = false := by
      cases xs with
      | inil =>
        intro c hc
        rw [show (dumpsItems JsonItems.inil ++ (']' :: rest)).head?
            = some ']' from rfl] at hc
        cases hc
        decide
      | icons y ys =>
        intro c hc
        rw [show (dumpsItems (JsonItems.icons y ys) ++ (']' :: rest)).head?
            = some ',' from by simp [dumpsItems]] at hc
        cases hc
        decide
    rw [ihV x _ hwx (by omega) hstop2]
    cases xs with
    | inil => rfl
    | icons y ys =>
      rw [wfI, Bool.and_eq_true] at hwxs
      show (parseItems n1 (skipWs (' ' :: (dumpsJ y ++ dumpsItems ys
          ++ (']' :: rest))))).map (fun q => (JsonItems.icons x q.1, q.2))
        = some (JsonItems.icons x (JsonItems.icons y ys), rest)
      rw [skipWs_cons_true (by decide)]
      obtain ⟨c, cs, hcy, hcw, _⟩ := dumpsJ_head hwxs.1
      have hskip : skipWs (dumpsJ y ++ dumpsItems ys ++ (']' :: rest))
          = dumpsJ y ++ dumpsItems ys ++ (']' :: rest) := by
        rw [hcy]
        rw [show (c :: cs) ++ dumpsItems ys ++ (']' :: rest)
            = c :: (cs ++ dumpsItems ys ++ (']' :: rest)) from by simp]
        rw [skipWs_cons_false hcw]
      rw [hskip, ihI y ys rest hwxs.1 hwxs.2 (by rw [needI] at hneed ⊢; omega)]
      rfl
  · -- member lists
    intro k v ms acc rest hwv hwms hneed
    rw [needM] at hneed
    have hv := needJ_pos v
    obtain ⟨n1, rfl⟩ : ∃ n1, n = n1 + 1 := ⟨n - 1, by omega⟩
    have ihV := (ih n1 (by omega)).1
    have ihM := (ih n1 (by omega)).2.2
    have hkey : dumpsKey k ++ dumpsJ v ++ dumpsMembers ms ++ ('\x7d' :: rest)
        = '"' :: (escapeString k ++ ('"' :: ':' :: ' ' ::
            (dumpsJ v ++ (dumpsMembers ms ++ ('\x7d' :: rest))))) := by
      simp [dumpsKey]
    rw [hkey, parseMembers]
    have hlen : k.length + 1
        ≤ (escapeString k ++ ('"' :: ':' :: ' ' ::
            (dumpsJ v ++ (dumpsMembers ms ++ ('\x7d' :: rest))))).length + 1 := by
      have h1 := length_le_escapeString k
      rw [List.length_append]
      omega
    rw [show escapeString k ++ ('"' :: ':' :: ' ' ::
        (dumpsJ v ++ (dumpsMembers ms ++ ('\x7d' :: rest))))
        = escapeString k ++ '"' :: (':' :: ' ' ::
          (dumpsJ v ++ (dumpsMembers ms ++ ('\x7d' :: rest)))) from rfl]
    rw [parseStringBody_escape k _ _ (by simpa using hlen)]
    show (match parseVal n1 (skipWs (' ' :: (dumpsJ v ++ (dumpsMembers ms
        ++ ('\x7d' :: rest))))) with
      | none => none
      | some (v2, r4) =>
        match skipWs r4 with
        | ',' :: r5 => parseMembers n1 (minsert acc k v2) (skipWs r5)
        | '\x7d' :: r5 => some (minsert acc k v2, r5)
        | _ => none)
      = some (minsertMembers acc (JsonMembers.mcons k v ms), rest)
    rw [skipWs_cons_true (by decide)]
    obtain ⟨c, cs, hcv, hcw, _⟩ := dumpsJ_head hwv
    have hskip : skipWs (dumpsJ v ++ (dumpsMembers ms ++ ('\x7d' :: rest)))
        = dumpsJ v ++ (dumpsMembers ms ++ ('\x7d' :: rest)) := by
      rw [hcv, List.cons_append, skipWs_cons_false hcw]
    have hstop2 : ∀ c2, (dumpsMembers ms ++ ('\x7d' :: rest)).head? = some c2 →
        numberChar c2 = false := by
      cases ms with
      | mnil =>
        intro c2 hc2
        rw [show (dumpsMembers JsonMembers.mnil ++ ('\x7d' :: rest)).head?
            = some '\x7d' from rfl] at hc2
        cases hc2
        decide
      | mcons k2 v2 t2 =>
        intro c2 hc2
        rw [show (dumpsMembers (JsonMembers.mcons k2 v2 t2)
            ++ ('\x7d' :: rest)).head? = some ',' from by simp [dumpsMembers]] at hc2
        cases hc2
        decide
    rw [hskip]
    rw [ihV v _ hwv (by omega) hstop2]
    cases ms with
    | mnil => rfl
    | mcons k2 v2 t2 =>
      rw [wfM, Bool.and_eq_true] at hwms
      show parseMembers n1 (minsert acc k v) (skipWs (' ' :: (dumpsKey k2
          ++ dumpsJ v2 ++ dumpsMembers t2 ++ ('\x7d' :: rest))))
        = some (minsertMembers acc
            (JsonMembers.mcons k v (JsonMembers.mcons k2 v2 t2)), rest)
      rw [skipWs_cons_true (by decide)]
      have hkey2 : dumpsKey k2 ++ dumpsJ v2 ++ dumpsMembers t2 ++ ('\x7d' :: rest)
          = '"' :: (escapeString k2 ++ ('"' :: ':' :: ' ' ::
              (dumpsJ v2 ++ (dumpsMembers t2 ++ ('\x7d' :: rest))))) := by
        simp [dumpsKey]
      have hskip2 : skipWs (dumpsKey k2 ++ dumpsJ v2 ++ dumpsMembers t2
          ++ ('\x7d' :: rest))
          = dumpsKey k2 ++ dumpsJ v2 ++ dumpsMembers t2 ++ ('\x7d' :: rest) := by
        rw [hkey2, skipWs_cons_false (by decide)]
      rw [hskip2, ihM k2 v2 t2 (minsert acc k v) rest hwms.1 hwms.2
        (by rw [needM] at hneed ⊢; omega)]
      rfl

end PolicyAgent

namespace PolicyAgent

mutual
/-- Fuel bound: the fuel needed by the parser on a serialized value is at
most three times the serialization length. -/
theorem needJ_le : ∀ j : Json, wfJ j = true → needJ j ≤ 3 * (dumpsJ j).length
  | Json.jnull, _ => by decide
  | Json.jbool b, _ => by cases b <;> decide
  | Json.jnum s, hw => by
    rw [wfJ] at hw
    obtain ⟨c, cs, rfl, _⟩ := validNumber_head hw
    rw [needJ]
    simp [dumpsJ]
    omega
  | Json.jstr s, _ => by
    rw [needJ]
    simp [dumpsJ]
    omega
  | Json.jarr JsonItems.inil, _ => by decide
  | Json.jarr (JsonItems.icons x t), hw => by
    rw [wfJ, wfI, Bool.and_eq_true] at hw
    have h1 := needJ_le x hw.1
    have h2 := needI_le t hw.2
    rw [needJ, needI]
    simp [dumpsJ]
    omega
  | Json.jobj JsonMembers.mnil, _ => by decide
  | Json.jobj (JsonMembers.mcons k v t), hw => by
    rw [wfJ, Bool.and_eq_true] at hw
    obtain ⟨_, hwm⟩ := hw
    rw [wfM, Bool.and_eq_true] at hwm
    have h1 := needJ_le v hwm.1
    have h2 := needM_le t hwm.2
    rw [needJ, needM]
    simp [dumpsJ, dumpsKey]
    omega
theorem needI_le : ∀ xs : JsonItems, wfI xs = true →
    needI xs ≤ 3 * (dumpsItems xs).length + 1
  | JsonItems.inil, _ => by decide
  | JsonItems.icons x t, hw => by
    rw [wfI, Bool.and_eq_true] at hw
    have h1 := needJ_le x hw.1
    have h2 := needI_le t hw.2
    rw [needI]
    simp [dumpsItems]
    omega
theorem needM_le : ∀ ms : JsonMembers, wfM ms = true →
    needM ms ≤ 3 * (dumpsMembers ms).length + 1
  | JsonMembers.mnil, _ => by decide
  | JsonMembers.mcons k v t, hw => by
    rw [wfM, Bool.and_eq_true] at hw
    have h1 := needJ_le v hw.1
    have h2 := needM_le t hw.2
    rw [needM]
    simp [dumpsMembers, dumpsKey]
    omega
end

/-- `json.loads` inverts `json.dumps` on well-formed values. -/
theorem jsonLoads_dumps (j : Json) (hw : wfJ j = true) :
    jsonLoads (dumpsJ j) = some j := by
  obtain ⟨c, cs, hcx, hcw, _⟩ := dumpsJ_head hw
  have hskip : skipWs (dumpsJ j) = dumpsJ j := by
    rw [hcx, skipWs_cons_false hcw]
  have hmain := (parse_dumps_roundTrip (3 * (dumpsJ j).length + 3)).1 j [] hw
    (by have := needJ_le j hw; omega)
    (by intro c2 hc2; cases hc2)
  rw [List.append_nil] at hmain
  rw [jsonLoads, hskip, hmain]
  rfl

end PolicyAgent

namespace PolicyAgent

theorem digit_not_pyspace {c : Char} (h : c.isDigit = true) : pyIsSpace c = false := by
  rw [pyIsSpace]
  by_cases h1 : c = ' '
  · subst h1; simp [Char.isDigit] at h
  by_cases h2 : c = '\t'
  · subst h2; simp [Char.isDigit] at h
  by_cases h3 : c = '\n'
  · subst h3; simp [Char.isDigit] at h
  by_cases h4 : c = '\r'
  · subst h4; simp [Char.isDigit] at h
  by_cases h5 : c = '\x0b'
  · subst h5; simp [Char.isDigit] at h
  by_cases h6 : c = '\x0c'
  · subst h6; simp [Char.isDigit] at h
  simp [h1, h2, h3, h4, h5, h6]

theorem numberChar_not_pyspace {c : Char} (h : numberChar c = true) :
    pyIsSpace c = false := by
  rw [numberChar] at h
  rcases Bool.or_eq_true_iff.mp h with h' | hE
  · rcases Bool.or_eq_true_iff.mp h' with h'' | he
    · rcases Bool.or_eq_true_iff.mp h'' with h3 | hdot
      · rcases Bool.or_eq_true_iff.mp h3 with h4 | hplus
        · rcases Bool.or_eq_true_iff.mp h4 with hdig | hminus
          · exact digit_not_pyspace hdig
          · rw [decide_eq_true_iff.mp hminus]; decide
        · rw [decide_eq_true_iff.mp hplus]; decide
      · rw [decide_eq_true_iff.mp hdot]; decide
    · rw [decide_eq_true_iff.mp he]; decide
  · rw [decide_eq_true_iff.mp hE]; decide

/-- The head character of a serialized well-formed value is not Python
whitespace. -/
theorem dumpsJ_head_plain {j : Json} (hw : wfJ j = true) :
    ∃ c cs, dumpsJ j = c :: cs ∧ pyIsSpace c = false := by
  cases j with
  | jnull => exact ⟨'n', ['u', 'l', 'l'], by decide, by decide⟩
  | jbool b =>
    cases b
    · exact ⟨'f', ['a', 'l', 's', 'e'], by decide, by decide⟩
    · exact ⟨'t', ['r', 'u', 'e'], by decide, by decide⟩
  | jnum s =>
    rw [wfJ] at hw
    obtain ⟨c, cs, rfl, hc⟩ := validNumber_head hw
    rcases hc with rfl | hdig
    · exact ⟨'-', cs, rfl, by decide⟩
    · exact ⟨c, cs, rfl, digit_not_pyspace hdig⟩
  | jstr s => exact ⟨'"', escapeString s ++ ['"'], rfl, by decide⟩
  | jarr xs =>
    cases xs with
    | inil => exact ⟨'[', [']'], by decide, by decide⟩
    | icons x t => exact ⟨'[', dumpsJ x ++ dumpsItems t ++ [']'], rfl, by decide⟩
  | jobj ms =>
    cases ms with
    | mnil => exact ⟨'\x7b', ['\x7d'], by decide, by decide⟩
    | mcons k v t =>
      exact ⟨'\x7b', dumpsKey k ++ dumpsJ v ++ dumpsMembers t ++ ['\x7d'], rfl,
        by decide⟩

/-- The last character of a serialized well-formed value exists and is not
Python whitespace. -/
theorem dumpsJ_getLast {j : Json} (hw : wfJ j = true) :
    ∃ c, (dumpsJ j).getLast? = some c ∧ pyIsSpace c = false := by
  cases j with
  | jnull => exact ⟨'l', by decide, by decide⟩
  | jbool b =>
    cases b
    · exact ⟨'e', by decide, by decide⟩
    · exact ⟨'e', by decide, by decide⟩
  | jnum s =>
    rw [wfJ] at hw
    obtain ⟨c, cs, rfl, _⟩ := validNumber_head hw
    have hne : (c :: cs) ≠ [] := by simp
    have hmem : (c :: cs).getLast hne ∈ c :: cs := List.getLast_mem hne
    have hnc := validNumber_chars hw _ hmem
    refine ⟨(c :: cs).getLast hne, ?_, numberChar_not_pyspace hnc⟩
    rw [show dumpsJ (Json.jnum (c :: cs)) = c :: cs from rfl]
    rw [List.getLast?_eq_getLast _ hne]
  | jstr s =>
    refine ⟨'"', ?_, by decide⟩
    rw [show dumpsJ (Json.jstr s) = ('"' :: escapeString s) ++ ['"'] from by
      simp [dumpsJ]]
    exact List.getLast?_concat _
  | jarr xs =>
    cases xs with
    | inil => exact ⟨']', by decide, by decide⟩
    | icons x t =>
      refine ⟨']', ?_, by decide⟩
      rw [show dumpsJ (Json.jarr (JsonItems.icons x t))
          = ('[' :: (dumpsJ x ++ dumpsItems t)) ++ [']'] from by simp [dumpsJ]]
      exact List.getLast?_concat _
  | jobj ms =>
    cases ms with
    | mnil => exact ⟨'\x7d', by decide, by decide⟩
    | mcons k v t =>
      refine ⟨'\x7d', ?_, by decide⟩
      rw [show dumpsJ (Json.jobj (JsonMembers.mcons k v t))
          = ('\x7b' :: (dumpsKey k ++ dumpsJ v ++ dumpsMembers t)) ++ ['\x7d']
          from by simp [dumpsJ]]
      exact List.getLast?_concat _

theorem findSplit_of_startsWith {pat : List Char} {c : Char} {rest : List Char}
    (h : startsWith pat (c :: rest) = true) :
    findSplit pat (c :: rest) = some ([], (c :: rest).drop pat.length) := by
  rw [findSplit, if_pos h]

/-- When the pattern head does not occur in `a`, searching `a ++ b` is
searching `b` with `a` prepended to the prefix part. -/
theorem findSplit_append_of_head {p0 : Char} {ps : List Char} :
    ∀ {a : List Char}, ¬ p0 ∈ a → ∀ b : List Char,
    findSplit (p0 :: ps) (a ++ b)
      = (findSplit (p0 :: ps) b).map (fun q => (a ++ q.1, q.2))
  | [], _, b => by
    cases hb : findSplit (p0 :: ps) b <;> simp [hb]
  | x :: a2, ha, b => by
    rw [List.cons_append, findSplit]
    have hne : ¬ p0 = x := fun he => ha (he ▸ List.mem_cons_self ..)
    rw [if_neg (by rw [startsWith_cons_false hne]; exact fun hk => nomatch hk)]
    rw [findSplit_append_of_head (fun hm => ha (List.mem_cons_of_mem _ hm)) b]
    cases hb : findSplit (p0 :: ps) b <;> simp [hb]

theorem findSplit_eq_none {pat l : List Char} (h : ¬ pat <:+: l) :
    findSplit pat l = none := by
  cases hb : findSplit pat l with
  | none => rfl
  | some q =>
    exact absurd (findSplit_isSome_iff.mp (by rw [hb]; rfl)) h

theorem mem_pyStrip {c : Char} {l : List Char} (h : c ∈ pyStrip l) : c ∈ l := by
  rw [pyStrip, List.mem_reverse] at h
  have h2 := (List.dropWhile_sublist _).subset h
  rw [List.mem_reverse] at h2
  exact (List.dropWhile_sublist _).subset h2

theorem mem_stripThink {c : Char} : ∀ (fuel : Nat) (l : List Char),
    c ∈ stripThink fuel l → c ∈ l
  | 0, _, h => h
  | fuel + 1, l, h => by
    rw [stripThink] at h
    split at h
    · exact h
    next before after heq =>
      split at h
      · exact h
      next mid after2 heq2 =>
        have hl := findSplit_eq _ heq
        have ha := findSplit_eq _ heq2
        rw [List.mem_append] at h
        rw [hl, ha]
        rcases h with h | h
        · simp [List.mem_append, h]
        · have h2 := mem_stripThink fuel after2 h
          simp [List.mem_append, h2]

theorem mem_findFence {c : Char} {l content : List Char}
    (hf : findFence l = some content) (h : c ∈ content) : c ∈ l := by
  rw [findFence] at hf
  cases h1 : findSplit ("```".data) l with
  | none => rw [h1] at hf; cases hf
  | some q =>
    obtain ⟨pre, rest⟩ := q
    rw [h1] at hf
    simp only at hf
    cases h2 : findSplit ("```".data)
        ((if startsWith ("json".data) rest then rest.drop 4 else rest).dropWhile
          pyIsSpace) with
    | none => rw [h2] at hf; cases hf
    | some q2 =>
      obtain ⟨content2, after2⟩ := q2
      rw [h2] at hf
      have hc2 : content2 = content := by
        have := Option.some.injEq .. ▸ hf
        exact this
      subst hc2
      have h3 := findSplit_eq _ h2
      have hmem3 : c ∈ (if startsWith ("json".data) rest
          then rest.drop 4 else rest).dropWhile pyIsSpace := by
        rw [h3]
        simp [List.mem_append, h]
      have hmem2 := (List.dropWhile_sublist _).subset hmem3
      have hmemr : c ∈ rest := by
        by_cases hj : startsWith ("json".data) rest
        · rw [if_pos hj] at hmem2
          exact (List.drop_sublist _ _).subset hmem2
        · rw [if_neg hj] at hmem2
          exact hmem2
      have hl := findSplit_eq _ h1
      rw [hl]
      simp [List.mem_append, hmemr]

theorem mem_planThink {c : Char} {t : List Char} (h : c ∈ planThink t) : c ∈ t := by
  rw [planThink] at h
  by_cases hc : containsSub ("</think>".data) t = true
  · rw [if_pos hc] at h
    exact mem_stripThink _ _ (mem_pyStrip h)
  · rw [if_neg hc] at h
    exact h

theorem mem_planFence {c : Char} {t : List Char} (h : c ∈ planFence t) : c ∈ t := by
  rw [planFence] at h
  cases hf : findFence t with
  | none => rw [hf] at h; exact h
  | some content =>
    rw [hf] at h
    exact mem_findFence hf (mem_pyStrip h)

theorem parseArrBody_ne_jobj : ∀ (fuel : Nat) (l r : List Char) (ms : JsonMembers),
    parseArrBody fuel l = some (Json.jobj ms, r) → False
  | 0, _, _, _, h => nomatch h
  | fuel + 1, l, r, ms, h => by
    by_cases hl : ∃ r2, l = ']' :: r2
    · obtain ⟨r2, rfl⟩ := hl
      rw [show parseArrBody (fuel + 1) (']' :: r2)
          = some (Json.jarr JsonItems.inil, r2) from rfl] at h
      simp at h
    · rw [parseArrBody.eq_3 _ _ (fun r2 he => hl ⟨r2, he⟩)] at h
      obtain ⟨⟨xs, r2⟩, _, heq⟩ := Option.map_eq_some'.mp h
      simp at heq

theorem parseVal_jobj : ∀ (fuel : Nat) (l r : List Char) (ms : JsonMembers),
    parseVal fuel l = some (Json.jobj ms, r) → ∃ r1, l = '\x7b' :: r1
  | 0, _, _, _, h => by rw [parseVal] at h; exact nomatch h
  | _ + 1, [], _, _, h => by
    rw [parseVal.eq_2 _ (by omega)] at h
    exact nomatch h
  | fuel + 1, c :: r0, r, ms, h => by
    rw [parseVal] at h
    by_cases h1 : c = '\x7b'
    · exact ⟨r0, by rw [h1]⟩
    rw [if_neg h1] at h
    exfalso
    by_cases h2 : c = '['
    · rw [if_pos h2] at h
      exact parseArrBody_ne_jobj _ _ _ _ h
    rw [if_neg h2] at h
    by_cases h3 : c = '"'
    · rw [if_pos h3] at h
      obtain ⟨⟨s, r2⟩, _, heq⟩ := Option.map_eq_some'.mp h
      simp at heq
    rw [if_neg h3] at h
    split_ifs at h <;> simp at h
theorem pyStrip_eq_self_of {l : List Char} {x y : Char}
    (hh : l.head? = some x) (hx : pyIsSpace x = false)
    (hl : l.getLast? = some y) (hy : pyIsSpace y = false) : pyStrip l = l :=
  pyStrip_eq_self (fun c hc => by rw [hh] at hc; cases hc; exact hx)
    (fun c hc => by rw [hl] at hc; cases hc; exact hy)

theorem mem_of_containsSub {pat l : List Char} {c : Char}
    (h : containsSub pat l = true) (hc : c ∈ pat) : c ∈ l :=
  (containsSub_iff.mp h).subset hc

theorem stripThink_eq_self {fuel : Nat} {l : List Char}
    (h : findSplit ("<think>".data) l = none) : stripThink fuel l = l := by
  cases fuel with
  | zero => rfl
  | succ f => rw [stripThink, h]

theorem findFence_eq {l pre rest : List Char}
    (h1 : findSplit ("```".data) l = some (pre, rest)) :
    findFence l = (match findSplit ("```".data)
        ((if startsWith ("json".data) rest then rest.drop 4
          else rest).dropWhile pyIsSpace) with
      | none => none
      | some (content, _) => some content) := by
  rw [findFence, h1]

theorem pyFindChar_eq_none {ch : Char} {l : List Char} (h : ¬ ch ∈ l) :
    pyFindChar ch l = none := by
  rw [pyFindChar, List.findIdx?_eq_none_iff]
  intro x hx
  simp only [beq_eq_false_iff_ne, ne_eq]
  exact fun he => h (he ▸ hx)

theorem jsonLoads_obj {l : List Char} {ms : JsonMembers}
    (h : jsonLoads l = some (Json.jobj ms)) : '\x7b' ∈ l := by
  rw [jsonLoads] at h
  split at h
  next j rest hp =>
    split at h
    · have hj : j = Json.jobj ms := by
        have h2 := Option.some.injEq .. ▸ h
        exact h2
      subst hj
      obtain ⟨r1, hr⟩ := parseVal_jobj _ _ _ _ hp
      have hmem : '\x7b' ∈ skipWs l := by rw [hr]; exact List.mem_cons_self _ _
      exact (List.dropWhile_sublist _).subset hmem
    · exact nomatch h
  next hp => exact nomatch h

theorem planThink_eq_self {t : List Char} (h : ¬ '<' ∈ t) : planThink t = t := by
  rw [planThink, if_neg ?_]
  intro hc
  exact h (mem_of_containsSub hc (by decide))

theorem pyStrip_cons_of_space {c : Char} {l : List Char} (h : pyIsSpace c = true) :
    pyStrip (c :: l) = pyStrip l := by
  rw [pyStrip, pyStrip, List.dropWhile_cons_of_pos h]

theorem pyStrip_concat_nl {d : List Char} {c0 cl : Char}
    (hh : d.head? = some c0) (h0 : pyIsSpace c0 = false)
    (hl : d.getLast? = some cl) (hcl : pyIsSpace cl = false) :
    pyStrip (d ++ ['\n']) = d := by
  rw [pyStrip]
  have h1 : (d ++ ['\n']).dropWhile pyIsSpace = d ++ ['\n'] := by
    apply dropWhile_eq_self_of_head
    intro c hc
    cases d with
    | nil => cases hh
    | cons x xs =>
      rw [List.cons_append] at hc
      rw [show ((x :: (xs ++ ['\n'])).head? : Option Char) = some x from rfl] at hc
      have hcx : x = c := Option.some.inj hc
      have hx : x = c0 := Option.some.inj hh
      rw [← hcx, hx]
      exact h0
  rw [h1, List.reverse_append]
  rw [show ((['\n'] : List Char).reverse ++ d.reverse : List Char)
      = '\n' :: d.reverse from rfl]
  rw [List.dropWhile_cons_of_pos (by decide)]
  have h2 : d.reverse.dropWhile pyIsSpace = d.reverse := by
    apply dropWhile_eq_self_of_head
    intro c hc
    rw [List.head?_reverse, hl] at hc
    cases hc
    exact hcl
  rw [h2, List.reverse_reverse]

theorem stripThink_step {fuel : Nat} {l before after mid after2 : List Char}
    (h1 : findSplit ("<think>".data) l = some (before, after))
    (h2 : findSplit ("</think>".data) after = some (mid, after2)) :
    stripThink (fuel + 1) l = before ++ stripThink fuel after2 := by
  rw [stripThink, h1]
  simp only [h2]

theorem findFence_wrap {d : List Char} {c0 : Char} {ds : List Char}
    (hd : d = c0 :: ds) (h0 : pyIsSpace c0 = false)
    (hbt : ¬ '\x60' ∈ d) :
    findFence (("```json\n".data) ++ d ++ ("\n```".data)) = some (d ++ ['\n']) := by
  have hin : ("```json\n".data) ++ d ++ ("\n```".data)
      = '\x60' :: ('\x60' :: '\x60' :: 'j' :: 's' :: 'o' :: 'n' :: '\n' ::
          (d ++ ('\n' :: '\x60' :: '\x60' :: '\x60' :: []))) := by
    rw [show ("```json\n".data : List Char)
        = '\x60' :: '\x60' :: '\x60' :: 'j' :: 's' :: 'o' :: 'n' :: '\n' :: []
        from by decide]
    rw [show ("\n```".data : List Char) = '\n' :: '\x60' :: '\x60' :: '\x60' :: []
        from by decide]
    simp
  have h1 : findSplit ("```".data) (("```json\n".data) ++ d ++ ("\n```".data))
      = some ([], 'j' :: 's' :: 'o' :: 'n' :: '\n' ::
          (d ++ ('\n' :: '\x60' :: '\x60' :: '\x60' :: []))) := by
    rw [hin]
    exact findSplit_of_startsWith rfl
  rw [findFence_eq h1]
  rw [if_pos (show startsWith ("json".data) ('j' :: 's' :: 'o' :: 'n' :: '\n' ::
      (d ++ ('\n' :: '\x60' :: '\x60' :: '\x60' :: []))) = true from rfl)]
  rw [show ('j' :: 's' :: 'o' :: 'n' :: '\n' ::
      (d ++ ('\n' :: '\x60' :: '\x60' :: '\x60' :: []))).drop 4
      = '\n' :: (d ++ ('\n' :: '\x60' :: '\x60' :: '\x60' :: [])) from rfl]
  rw [List.dropWhile_cons_of_pos (show pyIsSpace '\n' = true from by decide)]
  rw [hd, List.cons_append]
  rw [List.dropWhile_cons_of_neg (by simp [h0])]
  rw [← List.cons_append, ← hd]
  rw [show ("```".data : List Char) = '\x60' :: '\x60' :: '\x60' :: [] from by decide]
  rw [findSplit_append_of_head hbt ('\n' :: '\x60' :: '\x60' :: '\x60' :: [])]
  rw [show findSplit ('\x60' :: '\x60' :: '\x60' :: ([] : List Char))
      ('\n' :: '\x60' :: '\x60' :: '\x60' :: ([] : List Char))
      = some (['\n'], []) from by decide]
  rfl

theorem planFence_wrap {j : Json} (hw : wfJ j = true)
    (hbt : ¬ '\x60' ∈ dumpsJ j) :
    planFence (("```json\n".data) ++ dumpsJ j ++ ("\n```".data)) = dumpsJ j := by
  obtain ⟨c0, ds, hd, h0⟩ := dumpsJ_head_plain hw
  obtain ⟨cl, hl, hcl⟩ := dumpsJ_getLast hw
  rw [planFence, findFence_wrap hd h0 hbt]
  exact pyStrip_concat_nl (by rw [hd]; rfl) h0 hl hcl

theorem planLoad_dumps {j : Json} (hw : wfJ j = true) (hobj : j.isObj = true) :
    planLoad (dumpsJ j) = some j := by
  rw [planLoad, jsonLoads_dumps j hw]
  show (if j.isObj then some j else none) = some j
  rw [if_pos hobj]

theorem plan_fence_load {j : Json} (hw : wfJ j = true) (hobj : j.isObj = true)
    (hbt : ¬ '\x60' ∈ dumpsJ j) :
    planLoad (planFence (("```json\n".data) ++ dumpsJ j ++ ("\n```".data)))
      = some j := by
  rw [planFence_wrap hw hbt]
  exact planLoad_dumps hw hobj

theorem wrapForm (d : List Char) :
    ("```json\n".data) ++ d ++ ("\n```".data)
      = '\x60' :: '\x60' :: '\x60' :: 'j' :: 's' :: 'o' :: 'n' :: '\n' ::
          (d ++ ('\n' :: '\x60' :: '\x60' :: '\x60' :: [])) := by
  rw [show ("```json\n".data : List Char)
      = '\x60' :: '\x60' :: '\x60' :: 'j' :: 's' :: 'o' :: 'n' :: '\n' :: []
      from by decide]
  rw [show ("\n```".data : List Char) = '\n' :: '\x60' :: '\x60' :: '\x60' :: []
      from by decide]
  simp

/-- Evaluation of `_parse_plan_json` on a serialized object wrapped in a
fenced code block, provided the serialization contains no `<` and no
backtick. -/
theorem plan_fenced_eval {j : Json} (hw : wfJ j = true) (hobj : j.isObj = true)
    (hlt : ¬ '<' ∈ dumpsJ j) (hbt : ¬ '\x60' ∈ dumpsJ j) :
    parse_plan_json (("```json\n".data) ++ dumpsJ j ++ ("\n```".data)) = some j := by
  have hstrip : pyStrip (("```json\n".data) ++ dumpsJ j ++ ("\n```".data))
      = ("```json\n".data) ++ dumpsJ j ++ ("\n```".data) := by
    have hh : (("```json\n".data) ++ dumpsJ j ++ ("\n```".data)).head?
        = some '\x60' := by rw [wrapForm]; rfl
    have hgl : (("```json\n".data) ++ dumpsJ j ++ ("\n```".data)).getLast?
        = some '\x60' := by
      rw [show ("\n```".data : List Char)
          = '\n' :: '\x60' :: '\x60' :: '\x60' :: [] from by decide,
        List.getLast?_append_cons]
      rfl
    exact pyStrip_eq_self_of hh (by decide) hgl (by decide)
  have hne : ¬ ((pyStrip (("```json\n".data) ++ dumpsJ j ++ ("\n```".data))).isEmpty
      = true) := by
    rw [hstrip, wrapForm]
    exact fun hk => nomatch hk
  have hltI : ¬ '<' ∈ ("```json\n".data) ++ dumpsJ j ++ ("\n```".data) := by
    intro hm
    rcases List.mem_append.mp hm with hm1 | hm2
    · rcases List.mem_append.mp hm1 with hm3 | hm4
      · exact absurd hm3 (by decide)
      · exact hlt hm4
    · exact absurd hm2 (by decide)
  rw [parse_plan_json, if_neg hne, hstrip, planThink_eq_self hltI]
  exact plan_fence_load hw hobj hbt

/-- Evaluation of `_parse_plan_json` on the same fenced block preceded by a
reasoning block `<think>r</think>`. -/
theorem plan_think_fenced_eval {j : Json} {r : List Char}
    (hw : wfJ j = true) (hobj : j.isObj = true)
    (hlt : ¬ '<' ∈ dumpsJ j) (hbt : ¬ '\x60' ∈ dumpsJ j)
    (hrlt : ¬ '<' ∈ r) :
    parse_plan_json (("<think>".data) ++ r ++ ("</think>\n```json\n".data)
      ++ dumpsJ j ++ ("\n```".data)) = some j := by
  have e1 : ("<think>".data) ++ r ++ ("</think>\n```json\n".data)
      ++ dumpsJ j ++ ("\n```".data)
      = '<' :: 't' :: 'h' :: 'i' :: 'n' :: 'k' :: '>' :: (r ++ ('<' :: '/' :: 't' :: 'h' :: 'i' :: 'n' :: 'k' :: '>' :: '\n' :: '\x60' :: '\x60' :: '\x60' :: 'j' :: 's' :: 'o' :: 'n' :: '\n' :: (dumpsJ j ++ ('\n' :: '\x60' :: '\x60' :: '\x60' :: [])))) := by
    rw [show ("<think>".data : List Char)
        = '<' :: 't' :: 'h' :: 'i' :: 'n' :: 'k' :: '>' :: [] from by decide]
    rw [show ("</think>\n```json\n".data : List Char)
        = '<' :: '/' :: 't' :: 'h' :: 'i' :: 'n' :: 'k' :: '>' :: '\n' ::
          '\x60' :: '\x60' :: '\x60' :: 'j' :: 's' :: 'o' :: 'n' :: '\n' :: []
        from by decide]
    rw [show ("\n```".data : List Char) = '\n' :: '\x60' :: '\x60' :: '\x60' :: []
        from by decide]
    simp
  have hstrip : pyStrip (("<think>".data) ++ r ++ ("</think>\n```json\n".data)
      ++ dumpsJ j ++ ("\n```".data))
      = ("<think>".data) ++ r ++ ("</think>\n```json\n".data)
        ++ dumpsJ j ++ ("\n```".data) := by
    have hh : (("<think>".data) ++ r ++ ("</think>\n```json\n".data)
        ++ dumpsJ j ++ ("\n```".data)).head? = some '<' := by rw [e1]; rfl
    have hgl : (("<think>".data) ++ r ++ ("</think>\n```json\n".data)
        ++ dumpsJ j ++ ("\n```".data)).getLast? = some '\x60' := by
      rw [show ("\n```".data : List Char)
          = '\n' :: '\x60' :: '\x60' :: '\x60' :: [] from by decide,
        List.getLast?_append_cons]
      rfl
    exact pyStrip_eq_self_of hh (by decide) hgl (by decide)
  have hne : ¬ ((pyStrip (("<think>".data) ++ r ++ ("</think>\n```json\n".data)
      ++ dumpsJ j ++ ("\n```".data))).isEmpty = true) := by
    rw [hstrip, e1]
    exact fun hk => nomatch hk
  have hfs1 : findSplit ("<think>".data) (("<think>".data) ++ r
      ++ ("</think>\n```json\n".data) ++ dumpsJ j ++ ("\n```".data))
      = some ([], r ++ ('<' :: '/' :: 't' :: 'h' :: 'i' :: 'n' :: 'k' :: '>' :: '\n' :: '\x60' :: '\x60' :: '\x60' :: 'j' :: 's' :: 'o' :: 'n' :: '\n' :: (dumpsJ j ++ ('\n' :: '\x60' :: '\x60' :: '\x60' :: [])))) := by
    rw [e1]
    exact findSplit_of_startsWith rfl
  have hfs2 : findSplit ("</think>".data) (r ++ ('<' :: '/' :: 't' :: 'h' :: 'i' :: 'n' :: 'k' :: '>' :: '\n' :: '\x60' :: '\x60' :: '\x60' :: 'j' :: 's' :: 'o' :: 'n' :: '\n' :: (dumpsJ j ++ ('\n' :: '\x60' :: '\x60' :: '\x60' :: [])))) = some (r ++ [], '\n' :: '\x60' :: '\x60' :: '\x60' :: 'j' :: 's' :: 'o' :: 'n' :: '\n' :: (dumpsJ j ++ ('\n' :: '\x60' :: '\x60' :: '\x60' :: []))) := by
    rw [show ("</think>".data : List Char)
        = '<' :: '/' :: 't' :: 'h' :: 'i' :: 'n' :: 'k' :: '>' :: [] from by decide]
    rw [findSplit_append_of_head hrlt ('<' :: '/' :: 't' :: 'h' :: 'i' :: 'n' :: 'k' :: '>' :: '\n' :: '\x60' :: '\x60' :: '\x60' :: 'j' :: 's' :: 'o' :: 'n' :: '\n' :: (dumpsJ j ++ ('\n' :: '\x60' :: '\x60' :: '\x60' :: [])))]
    rw [show findSplit ('<' :: '/' :: 't' :: 'h' :: 'i' :: 'n' :: 'k' :: '>' ::
        ([] : List Char)) ('<' :: '/' :: 't' :: 'h' :: 'i' :: 'n' :: 'k' :: '>' :: '\n' :: '\x60' :: '\x60' :: '\x60' :: 'j' :: 's' :: 'o' :: 'n' :: '\n' :: (dumpsJ j ++ ('\n' :: '\x60' :: '\x60' :: '\x60' :: []))) = some ([], '\n' :: '\x60' :: '\x60' :: '\x60' :: 'j' :: 's' :: 'o' :: 'n' :: '\n' :: (dumpsJ j ++ ('\n' :: '\x60' :: '\x60' :: '\x60' :: []))) from findSplit_of_startsWith rfl]
    rfl
  have hcond : containsSub ("</think>".data) (("<think>".data) ++ r
      ++ ("</think>\n```json\n".data) ++ dumpsJ j ++ ("\n```".data)) = true := by
    apply containsSub_iff.mpr
    refine ⟨('<' :: 't' :: 'h' :: 'i' :: 'n' :: 'k' :: '>' :: []) ++ r, '\n' :: '\x60' :: '\x60' :: '\x60' :: 'j' :: 's' :: 'o' :: 'n' :: '\n' :: (dumpsJ j ++ ('\n' :: '\x60' :: '\x60' :: '\x60' :: [])), ?_⟩
    rw [e1, show ("</think>".data : List Char)
        = '<' :: '/' :: 't' :: 'h' :: 'i' :: 'n' :: 'k' :: '>' :: [] from by decide]
    simp
  have hfs3 : findSplit ("<think>".data) ('\n' :: '\x60' :: '\x60' :: '\x60' :: 'j' :: 's' :: 'o' :: 'n' :: '\n' :: (dumpsJ j ++ ('\n' :: '\x60' :: '\x60' :: '\x60' :: []))) = none := by
    apply findSplit_eq_none
    intro hinf
    have h4 : '<' ∈ ('\n' :: '\x60' :: '\x60' :: '\x60' :: 'j' :: 's' :: 'o' :: 'n' :: '\n' :: (dumpsJ j ++ ('\n' :: '\x60' :: '\x60' :: '\x60' :: []))) := hinf.subset (show ('<' : Char) ∈ ("<think>".data)
      from by decide)
    simp only [List.mem_cons, List.mem_append] at h4
    rcases h4 with h|h|h|h|h|h|h|h|h|h|h|h|h|h|h
    all_goals first
    | exact absurd h (by decide)
    | exact hlt h
    | cases h
  have hthink : planThink (("<think>".data) ++ r ++ ("</think>\n```json\n".data)
      ++ dumpsJ j ++ ("\n```".data))
      = ("```json\n".data) ++ dumpsJ j ++ ("\n```".data) := by
    rw [planThink, if_pos hcond]
    rw [stripThink_step hfs1 hfs2, List.nil_append, stripThink_eq_self hfs3]
    rw [pyStrip_cons_of_space (show pyIsSpace '\n' = true from by decide)]
    have hpw : pyStrip ('\x60' :: '\x60' :: '\x60' :: 'j' :: 's' :: 'o' :: 'n' :: '\n' :: (dumpsJ j ++ ('\n' :: '\x60' :: '\x60' :: '\x60' :: []))) = ('\x60' :: '\x60' :: '\x60' :: 'j' :: 's' :: 'o' :: 'n' :: '\n' :: (dumpsJ j ++ ('\n' :: '\x60' :: '\x60' :: '\x60' :: []))) := by
      have hgl2 : ('\x60' :: '\x60' :: '\x60' :: 'j' :: 's' :: 'o' :: 'n' :: '\n' :: (dumpsJ j ++ ('\n' :: '\x60' :: '\x60' :: '\x60' :: []))).getLast? = some '\x60' := by
        rw [show ('\x60' :: '\x60' :: '\x60' :: 'j' :: 's' :: 'o' :: 'n' :: '\n' :: (dumpsJ j ++ ('\n' :: '\x60' :: '\x60' :: '\x60' :: [])) : List Char) = ('\x60' :: '\x60' :: '\x60' :: 'j' :: 's' ::
          'o' :: 'n' :: '\n' :: [] ++ dumpsJ j)
          ++ ('\n' :: '\x60' :: '\x60' :: '\x60' :: []) from by simp,
          List.getLast?_append_cons]
        rfl
      exact pyStrip_eq_self_of rfl (by decide) hgl2 (by decide)
    rw [hpw, wrapForm]
  rw [parse_plan_json, if_neg hne, hstrip, hthink]
  exact plan_fence_load hw hobj hbt

/-- Evaluation of `_parse_plan_json` on any input with no opening brace:
nothing can be recovered and the result is `none`. -/
theorem plan_nobrace_eval {t : List Char} (hnob : ¬ '\x7b' ∈ t) :
    parse_plan_json t = none := by
  rw [parse_plan_json]
  by_cases he : (pyStrip t).isEmpty = true
  · rw [if_pos he]
  · rw [if_neg he]
    have hnb2 : ¬ '\x7b' ∈ planFence (planThink (pyStrip t)) :=
      fun hm => hnob (mem_pyStrip (mem_planThink (mem_planFence hm)))
    rw [planLoad]
    split
    next j hjl =>
      have hno : j.isObj = false := by
        cases j with
        | jobj ms => exact absurd (jsonLoads_obj hjl) hnb2
        | jnull => rfl
        | jbool b => rfl
        | jnum s => rfl
        | jstr s => rfl
        | jarr xs => rfl
      rw [hno]
      simp
    next hjl =>
      rw [pyFindChar_eq_none hnb2]

/-- **C4** (counterexample to the original claim): the well-formed JSON
object `\x7b"a": "<think>x</think>"\x7d`, wrapped in a fenced code block, is
not returned intact by `_parse_plan_json`: the reasoning-block removal fires
inside the string literal and the value of key `a` comes back empty. -/
theorem claim_C4_plan_json_counterexample :
    wfJ (Json.jobj (JsonMembers.mcons ['a']
        (Json.jstr ("<think>x</think>".data)) JsonMembers.mnil)) = true
    ∧ parse_plan_json (("```json\n".data)
        ++ dumpsJ (Json.jobj (JsonMembers.mcons ['a']
            (Json.jstr ("<think>x</think>".data)) JsonMembers.mnil))
        ++ ("\n```".data))
      = some (Json.jobj (JsonMembers.mcons ['a'] (Json.jstr [])
          JsonMembers.mnil))
    ∧ parse_plan_json (("```json\n".data)
        ++ dumpsJ (Json.jobj (JsonMembers.mcons ['a']
            (Json.jstr ("<think>x</think>".data)) JsonMembers.mnil))
        ++ ("\n```".data))
      ≠ some (Json.jobj (JsonMembers.mcons ['a']
          (Json.jstr ("<think>x</think>".data)) JsonMembers.mnil)) := by
  refine ⟨by decide, ?_, ?_⟩ <;> decide

/-- **C4** (amended): for a well-formed JSON object whose serialization
contains no `<` and no backtick, `_parse_plan_json` returns exactly the
object when it is wrapped in a fenced code block, and also when a reasoning
block with no nested `<` precedes the fence; and on any input containing no
opening brace it returns `none`. -/
theorem claim_C4_plan_json_amended (j : Json) (r t : List Char)
    (hobj : j.isObj = true) (hw : wfJ j = true)
    (hlt : ¬ '<' ∈ dumpsJ j) (hbt : ¬ '\x60' ∈ dumpsJ j)
    (hrlt : ¬ '<' ∈ r) (hnob : ¬ '\x7b' ∈ t) :
    parse_plan_json (("```json\n".data) ++ dumpsJ j ++ ("\n```".data)) = some j
    ∧ parse_plan_json (("<think>".data) ++ r ++ ("</think>\n```json\n".data)
        ++ dumpsJ j ++ ("\n```".data)) = some j
    ∧ parse_plan_json t = none :=
  ⟨plan_fenced_eval hw hobj hlt hbt,
    plan_think_fenced_eval hw hobj hlt hbt hrlt,
    plan_nobrace_eval hnob⟩

/-- Witness for the amended C4 theorem at the concrete object
`\x7b"a": 1\x7d`, reasoning text `because` and garbage `no json`. -/
theorem claim_C4_plan_json_amended_witness :
    (Json.jobj (JsonMembers.mcons ['a'] (Json.jnum ['1'])
        JsonMembers.mnil)).isObj = true
    ∧ (parse_plan_json (("```json\n".data)
          ++ dumpsJ (Json.jobj (JsonMembers.mcons ['a'] (Json.jnum ['1'])
              JsonMembers.mnil))
          ++ ("\n```".data))
        = some (Json.jobj (JsonMembers.mcons ['a'] (Json.jnum ['1'])
            JsonMembers.mnil))
      ∧ parse_plan_json (("<think>".data) ++ ("because".data)
            ++ ("</think>\n```json\n".data)
            ++ dumpsJ (Json.jobj (JsonMembers.mcons ['a'] (Json.jnum ['1'])
                JsonMembers.mnil))
            ++ ("\n```".data))
          = some (Json.jobj (JsonMembers.mcons ['a'] (Json.jnum ['1'])
              JsonMembers.mnil))
      ∧ parse_plan_json ("no json".data) = none) :=
  ⟨by decide, claim_C4_plan_json_amended
    (Json.jobj (JsonMembers.mcons ['a'] (Json.jnum ['1']) JsonMembers.mnil))
    ("because".data) ("no json".data)
    (by decide) (by decide) (by decide) (by decide) (by decide) (by decide)⟩

end PolicyAgent

namespace PolicyAgent

/-- **C7**: question filtering degrades gracefully.  If the model call
raises, or its output is unparseable (no strict parse and no usable
first-bracket/last-bracket slice), `_filter_questions_llm` returns exactly
the normalized input question list, where plain strings become
unnamed-field question records; no question is dropped. -/
theorem claim_C7_filter_degrades (llm : Except Unit (List Char))
    (questions : List Json)
    (hfail : llm = Except.error () ∨ ∃ output, llm = Except.ok output
      ∧ (parseFilterOutput output = Except.error ()
         ∨ parseFilterOutput output = Except.ok none)) :
    filter_questions_llm llm questions = normalizeQuestions questions := by
  simp only [filter_questions_llm]
  by_cases hq : questions.isEmpty = true
  · rw [if_pos hq, List.isEmpty_iff.mp hq]
    rfl
  · rw [if_neg hq]
    by_cases hn : (normalizeQuestions questions).isEmpty = true
    · rw [if_pos hn, List.isEmpty_iff.mp hn]
    · rw [if_neg hn]
      rcases hfail with rfl | ⟨output, rfl, hp⟩
      · rfl
      · rcases hp with hp | hp <;> simp only [hp]

/-- Witness for C7 at a failing model call and a one-string question list. -/
theorem claim_C7_filter_degrades_witness :
    filter_questions_llm (Except.error ()) [Json.jstr ("나이는?".data)]
      = normalizeQuestions [Json.jstr ("나이는?".data)]
    ∧ normalizeQuestions [Json.jstr ("나이는?".data)]
      = [Json.jobj (JsonMembers.mcons ("field".data) Json.jnull
          (JsonMembers.mcons ("question".data) (Json.jstr ("나이는?".data))
            JsonMembers.mnil))] :=
  ⟨claim_C7_filter_degrades (Except.error ()) [Json.jstr ("나이는?".data)]
    (Or.inl rfl), by decide⟩

/-- **C8** (counterexample to the original claim): status 503 is a
server-side 5xx error, but `call_document_parse` builds the generic
truncated-body message for it — the retry-later hint is attached only to
status 500. -/
theorem claim_C8_docparse_counterexample :
    respOk (HttpResponse.mk 503 ("Service Unavailable".data) Json.jnull) = false
    ∧ call_document_parse (HttpResponse.mk 503 ("Service Unavailable".data)
        Json.jnull)
      = Except.error (("Document Parse API 오류 (503). ".data)
          ++ ("Service Unavailable".data))
    ∧ containsSub DP_RETRY_HINT (("Document Parse API 오류 (503). ".data)
        ++ ("Service Unavailable".data)) = false :=
  ⟨by decide, by rfl, by decide⟩

/-- **C8** (amended): every non-success response raises; the message carries
the retry-later hint exactly for status 500, the credential/billing hint for
status 401, and otherwise the generic header followed by the response body
truncated to 200 characters. -/
theorem claim_C8_docparse_amended (r : HttpResponse) (hnok : respOk r = false) :
    ∃ msg, call_document_parse r = Except.error msg
      ∧ (r.status_code = 500 → DP_RETRY_HINT <:+ msg)
      ∧ (r.status_code = 401 → DP_AUTH_HINT <:+ msg)
      ∧ (¬ r.status_code = 500 → ¬ r.status_code = 401 →
          msg = ("Document Parse API 오류 (".data)
            ++ Nat.toDigits 10 r.status_code ++ ("). ".data)
            ++ (if r.text.isEmpty then [] else r.text.take 200)) := by
  refine ⟨dpErrorMsg r, ?_, ?_, ?_, ?_⟩
  · rw [call_document_parse, if_neg (by simp [hnok])]
  · intro h5
    simp only [dpErrorMsg, if_pos h5]
    exact List.suffix_append _ _
  · intro h4
    simp only [dpErrorMsg, if_neg (show ¬ r.status_code = 500 by simp [h4]),
      if_pos h4]
    exact List.suffix_append _ _
  · intro h5 h4
    simp only [dpErrorMsg, if_neg h5, if_neg h4]

/-- Witness for the amended C8 theorem at a concrete 500 response. -/
theorem claim_C8_docparse_amended_witness :
    respOk (HttpResponse.mk 500 [] Json.jnull) = false
    ∧ ∃ msg, call_document_parse (HttpResponse.mk 500 [] Json.jnull)
        = Except.error msg
      ∧ ((HttpResponse.mk 500 [] Json.jnull).status_code = 500 →
          DP_RETRY_HINT <:+ msg)
      ∧ ((HttpResponse.mk 500 [] Json.jnull).status_code = 401 →
          DP_AUTH_HINT <:+ msg)
      ∧ (¬ (HttpResponse.mk 500 [] Json.jnull).status_code = 500 →
          ¬ (HttpResponse.mk 500 [] Json.jnull).status_code = 401 →
          msg = ("Document Parse API 오류 (".data)
            ++ Nat.toDigits 10 (HttpResponse.mk 500 [] Json.jnull).status_code
            ++ ("). ".data)
            ++ (if (HttpResponse.mk 500 [] Json.jnull).text.isEmpty then []
                else (HttpResponse.mk 500 [] Json.jnull).text.take 200)) :=
  ⟨by decide, claim_C8_docparse_amended (HttpResponse.mk 500 [] Json.jnull)
    (by decide)⟩

/-- **C9** (counterexample to the original claim): a malformed extraction
response is not signalled by an absent value.  The decode failure inside
`call_information_extract` is downgraded to the empty dict, and
`_safe_information_extract` returns its serialization, not `None`. -/
theorem claim_C9_safe_ie_counterexample :
    jsonLoads ("not json".data) = none
    ∧ safe_information_extract (IEOutcome.contentStr ("not json".data))
      = some ("\x7b\x7d".data)
    ∧ safe_information_extract (IEOutcome.contentStr ("not json".data))
      ≠ none :=
  ⟨by decide, by decide, by decide⟩

/-- **C9** (amended): `_safe_information_extract` never raises — it returns
`none` when the underlying call raises (network, auth, file errors) and when
the result object is non-serializable; a malformed content string yields the
serialized empty dict; otherwise it returns the JSON serialization of the
extraction result (with `None` content serialized as `null`). -/
theorem claim_C9_safe_ie_amended (o : IEOutcome) :
    (o = IEOutcome.raised → safe_information_extract o = none)
    ∧ (o = IEOutcome.contentOther none → safe_information_extract o = none)
    ∧ (∀ s, o = IEOutcome.contentStr s → jsonLoads s = none →
        safe_information_extract o = some (dumpsJ (Json.jobj JsonMembers.mnil)))
    ∧ (∀ s j, o = IEOutcome.contentStr s → jsonLoads s = some j →
        safe_information_extract o = some (dumpsJ j))
    ∧ (o = IEOutcome.contentNone → safe_information_extract o = some ("null".data))
    ∧ (∀ j, o = IEOutcome.contentOther (some j) →
        safe_information_extract o = some (dumpsJ j)) := by
  refine ⟨?_, ?_, ?_, ?_, ?_, ?_⟩
  · intro h
    subst h
    rfl
  · intro h
    subst h
    rfl
  · intro s h hjl
    subst h
    simp only [safe_information_extract, call_information_extract, hjl]
    rfl
  · intro s j h hjl
    subst h
    simp only [safe_information_extract, call_information_extract, hjl]
    rfl
  · intro h
    subst h
    rfl
  · intro j h
    subst h
    rfl

/-- Witness for the amended C9 theorem: a raised call yields `none`, a
malformed content string yields the serialized empty dict. -/
theorem claim_C9_safe_ie_amended_witness :
    safe_information_extract IEOutcome.raised = none
    ∧ safe_information_extract (IEOutcome.contentStr ("not a json".data))
      = some (dumpsJ (Json.jobj JsonMembers.mnil)) :=
  ⟨(claim_C9_safe_ie_amended IEOutcome.raised).1 rfl,
    (claim_C9_safe_ie_amended (IEOutcome.contentStr ("not a json".data))).2.2.1
      ("not a json".data) rfl (by decide)⟩

end PolicyAgent

namespace PolicyAgent

theorem normalize_policy_text_len (raw : List Char) :
    (normalize_policy_text raw).length ≤ MAX_POLICY_TEXT_CHARS := by
  simp only [normalize_policy_text]
  exact List.length_take_le _ _

/-- **C5**: when the only textual content of a parsed document lives in its
`elements` list (no accepted top-level or nested `html`/`text`/`content`
string field) and at least one element carries text, the normalizer returns
the space-joined element texts, tag-stripped and whitespace-collapsed, in
original order; and every returned policy text is capped at
`MAX_POLICY_TEXT_CHARS` (20000) characters. -/
theorem claim_C5_policy_text (doc : JsonMembers) (items : JsonItems)
    (h1 : tryKey doc ("html".data) = none)
    (h2 : tryKey doc ("text".data) = none)
    (h3 : tryKey doc ("content".data) = none)
    (h4 : jget doc ("elements".data) = some (Json.jarr items))
    (h5 : jsonTruthy (Json.jarr items) = true)
    (h6 : (elementsTexts items).isEmpty = false) :
    policy_text_from_parsed_doc doc
      = Except.ok (normalize_policy_text (pyJoin [' '] (elementsTexts items)))
    ∧ ∀ (doc2 : JsonMembers) (s : List Char),
        policy_text_from_parsed_doc doc2 = Except.ok s →
        s.length ≤ MAX_POLICY_TEXT_CHARS := by
  constructor
  · have he : elementsOf doc = Except.ok (some (Json.jarr items)) := by
      rw [elementsOf, h4]
      simp only [h5, if_true]
    simp only [policy_text_from_parsed_doc, h1, h2, h3, he, h6, Bool.not_false,
      if_true]
  · intro doc2 s h
    rw [policy_text_from_parsed_doc] at h
    cases hk1 : tryKey doc2 ("html".data) with
    | some s1 =>
      simp only [hk1] at h
      cases h
      exact normalize_policy_text_len _
    | none =>
    simp only [hk1] at h
    cases hk2 : tryKey doc2 ("text".data) with
    | some s1 =>
      simp only [hk2] at h
      cases h
      exact normalize_policy_text_len _
    | none =>
    simp only [hk2] at h
    cases hk3 : tryKey doc2 ("content".data) with
    | some s1 =>
      simp only [hk3] at h
      cases h
      exact normalize_policy_text_len _
    | none =>
    simp only [hk3] at h
    cases he : elementsOf doc2 with
    | error u =>
      simp only [he] at h
      cases h
    | ok ov =>
      cases ov with
      | none =>
        simp only [he] at h
        cases h
        exact normalize_policy_text_len _
      | some v =>
        cases v with
        | jarr items2 =>
          simp only [he] at h
          split at h <;> (cases h; exact normalize_policy_text_len _)
        | jnull =>
          simp only [he] at h
          cases h
          exact normalize_policy_text_len _
        | jbool b =>
          simp only [he] at h
          cases h
          exact normalize_policy_text_len _
        | jnum s2 =>
          simp only [he] at h
          cases h
          exact normalize_policy_text_len _
        | jstr s2 =>
          simp only [he] at h
          cases h
          exact normalize_policy_text_len _
        | jobj ms2 =>
          simp only [he] at h
          cases h
          exact normalize_policy_text_len _

/-- Witness for C5 at a one-element document whose text carries markup. -/
theorem claim_C5_policy_text_witness :
    tryKey (JsonMembers.mcons ("elements".data)
    (Json.jarr (JsonItems.icons (Json.jobj (JsonMembers.mcons ("content".data)
      (Json.jobj (JsonMembers.mcons ("text".data)
        (Json.jstr ("<p>hello</p> world".data)) JsonMembers.mnil))
      JsonMembers.mnil)) JsonItems.inil)) JsonMembers.mnil) ("html".data) = none
    ∧ policy_text_from_parsed_doc (JsonMembers.mcons ("elements".data)
    (Json.jarr (JsonItems.icons (Json.jobj (JsonMembers.mcons ("content".data)
      (Json.jobj (JsonMembers.mcons ("text".data)
        (Json.jstr ("<p>hello</p> world".data)) JsonMembers.mnil))
      JsonMembers.mnil)) JsonItems.inil)) JsonMembers.mnil)
      = Except.ok (normalize_policy_text (pyJoin [' '] (elementsTexts (JsonItems.icons (Json.jobj (JsonMembers.mcons ("content".data)
      (Json.jobj (JsonMembers.mcons ("text".data)
        (Json.jstr ("<p>hello</p> world".data)) JsonMembers.mnil))
      JsonMembers.mnil)) JsonItems.inil))))
    ∧ normalize_policy_text (pyJoin [' '] (elementsTexts (JsonItems.icons (Json.jobj (JsonMembers.mcons ("content".data)
      (Json.jobj (JsonMembers.mcons ("text".data)
        (Json.jstr ("<p>hello</p> world".data)) JsonMembers.mnil))
      JsonMembers.mnil)) JsonItems.inil)))
      = ("hello world".data) :=
  ⟨by decide,
    (claim_C5_policy_text (JsonMembers.mcons ("elements".data)
    (Json.jarr (JsonItems.icons (Json.jobj (JsonMembers.mcons ("content".data)
      (Json.jobj (JsonMembers.mcons ("text".data)
        (Json.jstr ("<p>hello</p> world".data)) JsonMembers.mnil))
      JsonMembers.mnil)) JsonItems.inil)) JsonMembers.mnil) (JsonItems.icons (Json.jobj (JsonMembers.mcons ("content".data)
      (Json.jobj (JsonMembers.mcons ("text".data)
        (Json.jstr ("<p>hello</p> world".data)) JsonMembers.mnil))
      JsonMembers.mnil)) JsonItems.inil) (by decide) (by decide) (by decide)
      (by decide) (by decide) (by decide)).1,
    by decide⟩

end PolicyAgent
